import Mathlib

/-!
Verification development for the csv2json converter
(`src/csv2json/core/converter.py` and
`src/csv2json/gui/services/mapping_service.py`).

The Python functions are shallowly embedded: a Python `dict` is an
insertion-ordered association list `List (String × Val)` with unique keys,
a Python cell value is a `Val`, numbers are modelled exactly as rationals,
and code that can raise returns `Except PyErr`.  The mutating dictionary
walks (`unflatten_dic`, `merge_lists`) are embedded as explicit
state-passing loops over the `list(dic.items())` snapshot, exactly as the
source iterates.
-/

/-- Python exceptions that the embedded code can raise.  `fuelExhausted` is
an artifact of the embedding of the recursive `unflatten_dic` (which is not
structurally recursive); it never corresponds to a Python exception. -/
inductive PyErr : Type where
  | valueError : PyErr      -- numpy "truth value of an array is ambiguous"
  | typeError : PyErr       -- unhashable type / not JSON serializable
  | attributeError : PyErr  -- object has no attribute (e.g. `.update` on a non-dict)
  | keyError : PyErr        -- `del dic[k]` with `k` absent
  | fuelExhausted : PyErr   -- embedding artifact only
  deriving DecidableEq

/-- A Python value as produced by `pandas.DataFrame.to_dict` and transformed
by the converter: `null` is NaN/None, numbers are modelled exactly as
rationals, and nested dicts keep insertion order as association lists. -/
inductive Val : Type where
  | null : Val
  | num (q : Rat) : Val
  | str (s : String) : Val
  | boolean (b : Bool) : Val
  | list (l : List Val) : Val
  | dict (entries : List (String × Val)) : Val

mutual

def Val.decEq : (a b : Val) → Decidable (a = b)
  | .null, .null => isTrue rfl
  | .num a, .num b =>
      if h : a = b then isTrue (h ▸ rfl) else isFalse (fun hh => h (Val.num.inj hh))
  | .str a, .str b =>
      if h : a = b then isTrue (h ▸ rfl) else isFalse (fun hh => h (Val.str.inj hh))
  | .boolean a, .boolean b =>
      if h : a = b then isTrue (h ▸ rfl) else isFalse (fun hh => h (Val.boolean.inj hh))
  | .list a, .list b =>
      match Val.decEqL a b with
      | isTrue h => isTrue (h ▸ rfl)
      | isFalse h => isFalse (fun hh => h (Val.list.inj hh))
  | .dict a, .dict b =>
      match Val.decEqD a b with
      | isTrue h => isTrue (h ▸ rfl)
      | isFalse h => isFalse (fun hh => h (Val.dict.inj hh))
  | .null, .num _ => isFalse nofun
  | .null, .str _ => isFalse nofun
  | .null, .boolean _ => isFalse nofun
  | .null, .list _ => isFalse nofun
  | .null, .dict _ => isFalse nofun
  | .num _, .null => isFalse nofun
  | .num _, .str _ => isFalse nofun
  | .num _, .boolean _ => isFalse nofun
  | .num _, .list _ => isFalse nofun
  | .num _, .dict _ => isFalse nofun
  | .str _, .null => isFalse nofun
  | .str _, .num _ => isFalse nofun
  | .str _, .boolean _ => isFalse nofun
  | .str _, .list _ => isFalse nofun
  | .str _, .dict _ => isFalse nofun
  | .boolean _, .null => isFalse nofun
  | .boolean _, .num _ => isFalse nofun
  | .boolean _, .str _ => isFalse nofun
  | .boolean _, .list _ => isFalse nofun
  | .boolean _, .dict _ => isFalse nofun
  | .list _, .null => isFalse nofun
  | .list _, .num _ => isFalse nofun
  | .list _, .str _ => isFalse nofun
  | .list _, .boolean _ => isFalse nofun
  | .list _, .dict _ => isFalse nofun
  | .dict _, .null => isFalse nofun
  | .dict _, .num _ => isFalse nofun
  | .dict _, .str _ => isFalse nofun
  | .dict _, .boolean _ => isFalse nofun
  | .dict _, .list _ => isFalse nofun
termination_by structural a => a

def Val.decEqL : (a b : List Val) → Decidable (a = b)
  | [], [] => isTrue rfl
  | [], _ :: _ => isFalse nofun
  | _ :: _, [] => isFalse nofun
  | a :: as, b :: bs =>
      match Val.decEq a b with
      | isTrue h1 =>
          match Val.decEqL as bs with
          | isTrue h2 => isTrue (h1 ▸ h2 ▸ rfl)
          | isFalse h2 => isFalse (fun hh => h2 (List.tail_eq_of_cons_eq hh))
      | isFalse h1 => isFalse (fun hh => h1 (List.head_eq_of_cons_eq hh))
termination_by structural a => a

def Val.decEqD : (a b : List (String × Val)) → Decidable (a = b)
  | [], [] => isTrue rfl
  | [], _ :: _ => isFalse nofun
  | _ :: _, [] => isFalse nofun
  | (k, a) :: as, (l, b) :: bs =>
      if hk : k = l then
        match Val.decEq a b with
        | isTrue h1 =>
            match Val.decEqD as bs with
            | isTrue h2 => isTrue (hk ▸ h1 ▸ h2 ▸ rfl)
            | isFalse h2 => isFalse (fun hh => h2 (List.tail_eq_of_cons_eq hh))
        | isFalse h1 =>
            isFalse (fun hh => h1 (congrArg Prod.snd (List.head_eq_of_cons_eq hh)))
      else
        isFalse (fun hh => hk (congrArg Prod.fst (List.head_eq_of_cons_eq hh)))
termination_by structural a => a

end

instance : DecidableEq Val := Val.decEq

/-- Association-list model of a Python `dict` with string keys. -/
abbrev PyDict := List (String × Val)

/-- `dic[key]` lookup (first matching key; keys are unique in real states). -/
def dLookup : PyDict → String → Option Val
  | [], _ => none
  | (k, v) :: rest, key => if k = key then some v else dLookup rest key

/-- `dic[key] = val`: overwrite in place (keeping the key's position) when the
key is present, append at the end otherwise — Python dict assignment order
semantics. -/
def dInsert : PyDict → String → Val → PyDict
  | [], key, val => [(key, val)]
  | (k, v) :: rest, key, val =>
      if k = key then (k, val) :: rest else (k, v) :: dInsert rest key val

/-- Remove the (first) entry with the given key; used to model `del dic[k]`
after a successful presence check. -/
def dErase : PyDict → String → PyDict
  | [], _ => []
  | (k, v) :: rest, key => if k = key then rest else (k, v) :: dErase rest key

/-- `dic.setdefault(key, val)`: no change when the key is present, append
`(key, val)` at the end otherwise. -/
def setdefault (dic : PyDict) (key : String) (val : Val) : PyDict :=
  match dLookup dic key with
  | some _ => dic
  | none => dic ++ [(key, val)]

/-- Truthiness of `pd.isnull(v)` as used in `merge_lists`.  On a scalar,
`pd.isnull` returns a boolean (dicts count as scalars and are never null).
On a list it returns a numpy boolean array, whose use in an `if` raises
`ValueError` ("truth value of an array is ambiguous") unless the array has
exactly one element. -/
def pd_isnull_truth : Val → Except PyErr Bool
  | .null => .ok true
  | .list [x] => .ok (match x with | .null => true | _ => false)
  | .list _ => .error .valueError
  | _ => .ok false

/-- Whether a value is hashable in Python (usable as a set element). -/
def hashable : Val → Bool
  | .list _ => false
  | .dict _ => false
  | _ => true

/-- Deduplication as performed by Python `set` construction, modelled with a
deterministic first-occurrence order (Python guarantees only the set of
elements, not their order). -/
def pyDedup {α : Type} [DecidableEq α] (l : List α) : List α :=
  l.foldl (fun acc x => if x ∈ acc then acc else acc ++ [x]) []

/-- The guard `all(isinstance(l, list) and len(l) == len(values[0]) for l in
values)` of `merge_lists`: vacuously true on an empty `values`; when the
first value is not a list, `all` short-circuits to false on it before
`len(values[0])` is ever evaluated. -/
def columnar_all : List Val → Bool
  | [] => true
  | v0 :: rest =>
      match v0 with
      | .list l0 =>
          rest.all (fun l => match l with | .list ll => ll.length == l0.length | _ => false)
      | _ => false

/-- Element `i` of a column (total helper; only applied within bounds, under
the `columnar_all` guard). -/
def colAt : Val → Nat → Val
  | .list l, i => l.getD i .null
  | _, _ => .null

/-- `zip(*values)` for equal-length list columns: the list of row tuples. -/
def zipRows (values : List Val) (n : Nat) : List (List Val) :=
  (List.range n).map (fun i => values.map (fun c => colAt c i))

/-- Length of the first column, `len(values[0])`. -/
def firstLen : List Val → Nat
  | .list l :: _ => l.length
  | _ => 0

/-- The row dict `{subkey: t[i] for i, subkey in enumerate(keys)}`. -/
def rowObj (keys : List String) (t : List Val) : Val :=
  .dict (keys.zip t)

/-- The body of `merge_lists(dic, remove_nulls)`: the Python function iterates
over the snapshot `list(dic.items())` while mutating `dic`; here the snapshot
is the second argument and the mutated dict is threaded as `st`.  The `fuel`
argument is an embedding artifact making the recursion structural; the
recursion of the Python function always terminates, and every theorem below
quantifies over, or instantiates, the fuel.  A raised exception aborts the
whole walk (no caller catches it), so in-place mutations made before the
raise are irrelevant and are not threaded into the error result. -/
def merge_lists_go : Nat → List (String × Val) → Bool → PyDict → Except PyErr PyDict
  | 0, _, _, _ => .error .fuelExhausted
  | _ + 1, [], _, st => .ok st
  | fuel + 1, (k, v) :: rest, remove_nulls, st =>
      match pd_isnull_truth v with
      | .error e => .error e
      | .ok isn =>
        let st1 := if isn then (if remove_nulls then dErase st k else dInsert st k .null) else st
        match v with
        | .dict entries =>
            let values := entries.map Prod.snd
            if columnar_all values then
              -- dic[k] = []; val_tuple = set(zip(*values)); then append the row dicts
              let rows := zipRows values (firstLen values)
              if rows.all (fun r => r.all hashable) then
                let objs := (pyDedup rows).map (rowObj (entries.map Prod.fst))
                merge_lists_go fuel rest remove_nulls (dInsert st1 k (.list objs))
              else .error .typeError
            else
              match merge_lists_go fuel entries remove_nulls entries with
              | .error e => .error e
              | .ok entries2 => merge_lists_go fuel rest remove_nulls (dInsert st1 k (.dict entries2))
        | .list l =>
            if l.all hashable then
              merge_lists_go fuel rest remove_nulls (dInsert st1 k (.list (pyDedup l)))
            else .error .typeError
        | _ => merge_lists_go fuel rest remove_nulls st1

/-- `merge_lists(dic, remove_nulls)` from `converter.py` (fuelled embedding). -/
def merge_lists (fuel : Nat) (dic : PyDict) (remove_nulls : Bool) : Except PyErr PyDict :=
  merge_lists_go fuel dic remove_nulls dic

instance : DecidableEq (Except PyErr PyDict) := fun a b =>
  match a, b with
  | .ok x, .ok y => if h : x = y then isTrue (h ▸ rfl) else isFalse (fun hh => h (Except.ok.inj hh))
  | .error x, .error y =>
      if h : x = y then isTrue (h ▸ rfl) else isFalse (fun hh => h (Except.error.inj hh))
  | .ok _, .error _ => isFalse nofun
  | .error _, .ok _ => isFalse nofun

example : merge_lists 9 [("x", Val.dict [])] false = .ok [("x", Val.list [])] := rfl
example : merge_lists 9 [("a", Val.null), ("b", Val.num 1)] true = .ok [("b", Val.num 1)] := by decide
example : merge_lists 9 [("tags", Val.list [Val.num 1, Val.num 2])] false = .error .valueError := rfl

/-- Python `str.split('.')` on the character list: splits on every dot and
keeps empty segments, so the result is always nonempty (`"".split('.')` is
`[""]`). -/
def splitDotsC : List Char → List (List Char)
  | [] => [[]]
  | c :: rest =>
      if c = '.' then [] :: splitDotsC rest
      else
        match splitDotsC rest with
        | s :: ss => (c :: s) :: ss
        | [] => [[c]]

/-- `k.split('.')` for a string key. -/
def pySplitDot (s : String) : List String :=
  (splitDotsC s.toList).map (fun l => String.mk l)

/-- The body of `unflatten_dic(dic)`: iteration over the snapshot
`list(dic.items())` with the mutated dict threaded as `st`.  For a key with a
dot, the source does `dic.setdefault(subkeys[0], dict())`, then
`dic[subkeys[0]].update({"".join(subkeys[1:]): v})` — which raises
`AttributeError` when the value sitting at `subkeys[0]` is not a dict — then
recurses into `dic[subkeys[0]]`, then `del dic[k]`.  The `fuel` argument is
an embedding artifact making the recursion structural. -/
def unflatten_go : Nat → List (String × Val) → PyDict → Except PyErr PyDict
  | 0, _, _ => .error .fuelExhausted
  | _ + 1, [], st => .ok st
  | fuel + 1, (k, v) :: rest, st =>
      let subkeys := pySplitDot k
      if subkeys.length > 1 then
        let s0 := subkeys.headD ""
        let st1 := setdefault st s0 (.dict [])
        match dLookup st1 s0 with
        | some (.dict child) =>
            let child1 := dInsert child (String.join (subkeys.drop 1)) v
            match unflatten_go fuel child1 child1 with
            | .error e => .error e
            | .ok child2 =>
                let st2 := dInsert st1 s0 (.dict child2)
                match dLookup st2 k with
                | some _ => unflatten_go fuel rest (dErase st2 k)
                | none => .error .keyError
        | some _ => .error .attributeError
        | none => .error .attributeError   -- unreachable: setdefault ensured presence
      else unflatten_go fuel rest st

/-- `unflatten_dic(dic)` from `converter.py` (fuelled embedding). -/
def unflatten_dic (fuel : Nat) (dic : PyDict) : Except PyErr PyDict :=
  unflatten_go fuel dic dic

/-- The per-record reshape step of `excel_to_json` / `csv_to_json`:
`unflatten_dic(element)` followed by `merge_lists(element, remove_nulls)`. -/
def reshape (fuel : Nat) (dic : PyDict) (remove_nulls : Bool) : Except PyErr PyDict :=
  match unflatten_dic fuel dic with
  | .error e => .error e
  | .ok d1 => merge_lists fuel d1 remove_nulls

example : unflatten_dic 9 [("a.b.c", Val.num 1)] = .ok [("a", Val.dict [("bc", Val.num 1)])] := rfl
example : unflatten_dic 9 [("a.b", Val.num 1), ("c", Val.num 2)] =
    .ok [("c", Val.num 2), ("a", Val.dict [("b", Val.num 1)])] := rfl
example : unflatten_dic 9 [("p", Val.num 1), ("p.x", Val.num 2)] = .error .attributeError := rfl
example : reshape 9 [("a.b.c", Val.num 1)] false = .ok [("a", Val.dict [("bc", Val.num 1)])] := rfl

/-! ## Type coercion stage (`excel_to_json`, converter.py lines 180-196) -/

/-- A DataFrame cell: a string, an exact numeric value (pandas floats/ints are
modelled exactly as rationals), or NaN. -/
inductive Cell : Type where
  | s (v : String) : Cell
  | num (q : Rat) : Cell
  | nan : Cell
  deriving DecidableEq

/-- A DataFrame column, and a DataFrame as an ordered column map. -/
abbrev Column := List Cell

abbrev DataFrame := List (String × Column)

/-- `pd.api.types.is_string_dtype(df[col])`, modelled for homogeneous
columns: true exactly when every cell of the column is a string. -/
def is_string_dtype (col : Column) : Bool :=
  col.all (fun c => match c with | .s _ => true | _ => false)

/-- Digit run to a natural number. -/
def digitsToNat (cs : List Char) : Nat :=
  cs.foldl (fun a c => 10 * a + (c.toNat - '0'.toNat)) 0

/-- Generic single-character split, keeping empty segments (Python
`str.split(sep)` for a one-character separator). -/
def splitOnC (sep : Char) : List Char → List (List Char)
  | [] => [[]]
  | c :: rest =>
      if c = sep then [] :: splitOnC sep rest
      else
        match splitOnC sep rest with
        | s :: ss => (c :: s) :: ss
        | [] => [[c]]

/-- Negation on `Rat` built from the reducible smart constructor `mkRat`
(the field operations of `Rat` are `@[irreducible]`, which would block
kernel evaluation of the embedded functions). -/
def ratNeg (q : Rat) : Rat := mkRat (-q.num) q.den

/-- Models Python `float(s)` / `pandas.to_numeric` on a plain decimal literal
(optional sign, digits, optional fractional part): the exact rational value
`intpart.fracpart = (intpart·10^len + fracpart) / 10^len`, or `none` when
the string does not parse.  Exponents, whitespace padding and underscores
are outside the modelled fragment. -/
def parseUnsigned (cs : List Char) : Option Rat :=
  match splitOnC '.' cs with
  | [ip] =>
      if ip ≠ [] ∧ ip.all Char.isDigit then some (mkRat (digitsToNat ip) 1) else none
  | [ip, fp] =>
      if (ip ≠ [] ∨ fp ≠ []) ∧ ip.all Char.isDigit ∧ fp.all Char.isDigit then
        some (mkRat (digitsToNat ip * 10 ^ fp.length + digitsToNat fp) (10 ^ fp.length))
      else none
  | _ => none

def pyFloatParse (s : String) : Option Rat :=
  match s.toList with
  | '+' :: cs => parseUnsigned cs
  | '-' :: cs => (parseUnsigned cs).map ratNeg
  | cs => parseUnsigned cs

/-- Models Python `int(s)`: optional sign and a nonempty digit run. -/
def pyIntParse (s : String) : Option Int :=
  let core : List Char → Option Int := fun cs =>
    if cs ≠ [] ∧ cs.all Char.isDigit then some (digitsToNat cs) else none
  match s.toList with
  | '+' :: cs => core cs
  | '-' :: cs => (core cs).map Neg.neg
  | cs => core cs

/-- `df[col].str.replace(',', '.', regex=False)` on one string cell. -/
def commaToDot (s : String) : String :=
  String.mk (s.toList.map (fun c => if c = ',' then '.' else c))

def commaCell : Cell → Cell
  | .s v => .s (commaToDot v)
  | c => c

/-- `pd.to_numeric(col, errors='coerce')`: parseable strings become their
numeric value, unparseable strings become NaN, numeric cells pass through. -/
def to_numeric_coerce : Column → Column :=
  List.map (fun c =>
    match c with
    | .s v => (match pyFloatParse v with | some q => Cell.num q | none => Cell.nan)
    | c => c)

/-- Rational-to-integer cast truncating toward zero, as a numpy
float-to-int `astype` does. -/
def ratTruncToInt (q : Rat) : Int :=
  q.num.tdiv (q.den : Int)

/-- `df[col].astype(dtype)` for the declared tags `int` and `float`
(the fragment the claims are about): casting `int` raises on NaN
(`IntCastingNaNError`) and on non-integer literal strings, truncates floats
toward zero; casting `float` parses strings and lets NaN through.  Other
tags are outside the modelled fragment. -/
def mapE (f : Cell → Except PyErr Cell) : Column → Except PyErr Column
  | [] => .ok []
  | c :: rest =>
      match f c with
      | .error e => .error e
      | .ok c2 =>
          match mapE f rest with
          | .error e => .error e
          | .ok rest2 => .ok (c2 :: rest2)

/-- The elementwise cast of one cell under `astype('int')`. -/
def castInt : Cell → Except PyErr Cell
  | .num q => .ok (Cell.num (ratTruncToInt q : Int))
  | .nan => .error .valueError
  | .s v =>
      match pyIntParse v with
      | some n => .ok (Cell.num (n : Int))
      | none => .error .valueError

/-- The elementwise cast of one cell under `astype('float')`. -/
def castFloat : Cell → Except PyErr Cell
  | .num q => .ok (Cell.num q)
  | .nan => .ok Cell.nan
  | .s v =>
      match pyFloatParse v with
      | some q => .ok (Cell.num q)
      | none => .error .valueError

def astype (dtype : String) (col : Column) : Except PyErr Column :=
  if dtype = "int" then mapE castInt col
  else if dtype = "float" then mapE castFloat col
  else .error .typeError

/-- The `try` body of the datatype loop of `excel_to_json` for one column,
with its `except` clause: for a string column declared `float`/`int`, the
column is FIRST overwritten with the `to_numeric(..., errors='coerce')`
result of the comma-normalized values; then `astype` runs.  When `astype`
raises, the exception is caught and logged (`ColumnCoercionWarning`), and the
column is left in whatever state the `try` body had already put it in — the
post-`to_numeric` state, not the original values. -/
def apply_dtype_to_column (dtype : String) (col : Column) : Column :=
  let col1 :=
    if is_string_dtype col && (dtype == "float" || dtype == "int") then
      to_numeric_coerce (col.map commaCell)
    else col
  match astype dtype col1 with
  | .ok col2 => col2
  | .error _ => col1

def cLookup : DataFrame → String → Option Column
  | [], _ => none
  | (k, v) :: rest, key => if k = key then some v else cLookup rest key

def cInsert : DataFrame → String → Column → DataFrame
  | [], key, val => [(key, val)]
  | (k, v) :: rest, key, val =>
      if k = key then (k, val) :: rest else (k, v) :: cInsert rest key val

/-- The datatype loop of `excel_to_json` (lines 180-196): each schema entry is
applied to its column when present (a missing column only logs a warning);
a per-column failure is caught inside the loop body, so the remaining
columns are still processed. -/
def apply_datatypes : List (String × String) → DataFrame → DataFrame
  | [], df => df
  | (col, dtype) :: rest, df =>
      match cLookup df col with
      | some c => apply_datatypes rest (cInsert df col (apply_dtype_to_column dtype c))
      | none => apply_datatypes rest df

example : apply_dtype_to_column "int" [Cell.s "abc", Cell.s "2"] = [Cell.nan, Cell.num 2] := rfl
example : apply_dtype_to_column "float" [Cell.s "10,5"] = [Cell.num (mkRat 21 2)] := by decide
example : apply_dtype_to_column "float" [Cell.s "abc", Cell.s "1,5"] =
    [Cell.nan, Cell.num (mkRat 3 2)] := by decide

/-! ## Final serialization (`json.dumps(json_data, indent=4, skipkeys=True)`,
converter.py lines 211-212) -/

/-- A Python dict key as seen by the serializer: the basic JSON-encodable key
types, or some other object (`other`) with no JSON key representation. -/
inductive PyKey : Type where
  | s (v : String) : PyKey
  | i (n : Int) : PyKey
  | b (v : Bool) : PyKey
  | nullKey : PyKey
  | other (tag : String) : PyKey

/-- A Python value reaching `json.dumps`: JSON-encodable values, plus `obj`,
an object of a type the encoder does not know (e.g. a `set` or a pandas
`Timestamp`). -/
inductive PyVal : Type where
  | null : PyVal
  | i (n : Int) : PyVal
  | s (v : String) : PyVal
  | b (v : Bool) : PyVal
  | list (l : List PyVal) : PyVal
  | dict (entries : List (PyKey × PyVal)) : PyVal
  | obj (tag : String) : PyVal

/-- The JSON document tree that `json.dumps` writes out. -/
inductive Json : Type where
  | null : Json
  | i (n : Int) : Json
  | s (v : String) : Json
  | b (v : Bool) : Json
  | arr (l : List Json) : Json
  | obj (entries : List (String × Json)) : Json

/-- How `json.dumps` renders a dict key: basic types are stringified,
anything else has no representation (`none`). -/
def keyStr : PyKey → Option String
  | .s v => some v
  | .i n => some (toString n)
  | .b true => some "true"
  | .b false => some "false"
  | .nullKey => some "null"
  | .other _ => none

mutual

/-- `json.dumps(v, skipkeys=True)` modelled as producing the JSON tree:
a value with no JSON representation raises `TypeError`; a dict ENTRY whose
KEY has no representation is silently skipped (that is all `skipkeys=True`
does — it does not apply to values). -/
def pyDumps : PyVal → Except PyErr Json
  | .null => .ok .null
  | .i n => .ok (.i n)
  | .s v => .ok (.s v)
  | .b v => .ok (.b v)
  | .obj _ => .error .typeError
  | .list l =>
      match pyDumpsL l with
      | .ok js => .ok (.arr js)
      | .error e => .error e
  | .dict es =>
      match pyDumpsD es with
      | .ok js => .ok (.obj js)
      | .error e => .error e
termination_by structural v => v

def pyDumpsL : List PyVal → Except PyErr (List Json)
  | [] => .ok []
  | v :: rest =>
      match pyDumps v with
      | .error e => .error e
      | .ok jv =>
          match pyDumpsL rest with
          | .ok js => .ok (jv :: js)
          | .error e => .error e
termination_by structural l => l

def pyDumpsD : List (PyKey × PyVal) → Except PyErr (List (String × Json))
  | [] => .ok []
  | (k, v) :: rest =>
      match keyStr k with
      | none => pyDumpsD rest   -- skipkeys=True: entry dropped, value never serialized
      | some ks =>
          match pyDumps v with
          | .error e => .error e
          | .ok jv =>
              match pyDumpsD rest with
              | .ok js => .ok ((ks, jv) :: js)
              | .error e => .error e
termination_by structural es => es

end

example : pyDumps (.dict [(.s "root", .list [.dict [(.s "k", .obj "Timestamp")]])]) =
    .error .typeError := rfl
example : pyDumps (.dict [(.other "tuplekey", .i 1), (.s "b", .i 2)]) =
    .ok (.obj [("b", .i 2)]) := rfl

/-! ## Field auto-mapper (`MappingService`, mapping_service.py) -/

/-- Python `str.lower()` restricted to the Latin letters occurring in the
mapper's tables and inputs: ASCII `A`-`Z`, the Latin-1 uppercase range
`\u00c0`-`\u00de` (except the multiplication sign), and `\u0178`. -/
def pyLowerChar (c : Char) : Char :=
  if 'A' ≤ c ∧ c ≤ 'Z' then Char.ofNat (c.toNat + 32)
  else if 'À' ≤ c ∧ c ≤ 'Þ' ∧ c ≠ '×' then Char.ofNat (c.toNat + 32)
  else if c = 'Ÿ' then 'ÿ'
  else c

def pyLower (s : String) : String :=
  String.mk (s.toList.map pyLowerChar)

/-- Generic association-list lookup (Python `dict` access / `in` test). -/
def aLookup {α : Type} : List (String × α) → String → Option α
  | [], _ => none
  | (k, v) :: rest, key => if k = key then some v else aLookup rest key

/-- Generic association-list store with Python dict assignment semantics:
overwrite in place when present, append otherwise. -/
def aInsert {α : Type} : List (String × α) → String → α → List (String × α)
  | [], key, val => [(key, val)]
  | (k, v) :: rest, key, val =>
      if k = key then (k, val) :: rest else (k, v) :: aInsert rest key val

/-- `self.variations` of `MappingService.__init__` (transcribed verbatim,
including the mojibake spelling of the second `street` variant). -/
def variations : List (String × List String) :=
  [("address", ["adresse", "addr", "adr"]),
   ("street", ["strasse", "straÃŸe", "str"]),
   ("city", ["stadt", "ort", "place"]),
   ("zip", ["zipcode", "postal", "postcode", "plz", "postleitzahl", "zip_code", "postal_code"]),
   ("plz", ["zip", "zipcode", "postal", "postcode", "postleitzahl", "zip_code", "postal_code"]),
   ("name", ["nom", "namen"]),
   ("first", ["vorname", "firstname", "first_name", "given"]),
   ("last", ["nachname", "lastname", "last_name", "surname", "family"]),
   ("phone", ["telefon", "tel", "telephone", "mobile", "cell"]),
   ("email", ["e-mail", "mail", "e_mail"]),
   ("country", ["land", "pays", "nation"]),
   ("state", ["bundesland", "province", "region"]),
   ("company", ["firma", "organization", "organisation", "business"]),
   ("date", ["datum", "day", "tag"]),
   ("number", ["nummer", "no", "num", "nr"]),
   ("price", ["preis", "cost", "prix"]),
   ("amount", ["betrag", "sum", "quantity", "menge"])]

/-- `self.special_cases` of `MappingService.__init__`. -/
def special_cases : List (String × List String) :=
  [("zip_code", ["PLZ", "ZIP", "PostalCode"]),
   ("address", ["Adresse", "Anschrift", "ADRESSE"]),
   ("city", ["Stadt", "Ort", "CITY"]),
   ("country", ["Land", "COUNTRY"]),
   ("phone", ["Telefon", "Tel", "PHONE"]),
   ("email", ["Email", "E-Mail", "EMAIL"])]

/-- `self.variation_lookup`: for each table row, every variant (lowercased)
maps to the main word, then the main word maps to itself; later rows
overwrite earlier entries, exactly as the Python dict assignments do. -/
def variation_lookup : List (String × String) :=
  variations.foldl
    (fun m p => aInsert (p.2.foldl (fun m v => aInsert m (pyLower v) p.1) m) (pyLower p.1) p.1)
    []

/-- The suffix list stripped from targets and sources before tokenising. -/
def mapper_suffixes : List String :=
  ["_id", "_name", "_nr", "_no", "_num", "_number"]

def pyEndsWith (s suffix : String) : Bool :=
  suffix.toList.isSuffixOf s.toList

def dropLastChars (s : String) (n : Nat) : String :=
  String.mk (s.toList.take (s.toList.length - n))

/-- Base-word extraction: remove the first matching suffix of
`mapper_suffixes` (the Python loop breaks at the first hit). -/
def baseOf (s : String) : String :=
  match mapper_suffixes.find? (fun suf => pyEndsWith s suf) with
  | some suf => dropLastChars s suf.toList.length
  | none => s

def splitUnderscore (s : String) : List String :=
  (splitOnC '_' s.toList).map (fun l => String.mk l)

/-- `set.add`, on the ordered-duplicate-free-list model of a Python set. -/
def setAdd (s : List String) (x : String) : List String :=
  if x ∈ s then s else s ++ [x]

/-- The variation set of a name: each `_`-token plus its canonical synonym
when the token is in `variation_lookup`. -/
def variationSet (parts : List String) : List String :=
  parts.foldl
    (fun acc part =>
      let acc1 := setAdd acc part
      match aLookup variation_lookup (pyLower part) with
      | some m => setAdd acc1 m
      | none => acc1)
    []

/-- `a < b` on exact rationals, via cross multiplication (the rational
comparisons of the scoring are modelled exactly; `Rat`'s own order is
`@[irreducible]`, which would block kernel evaluation). -/
def ratLtB (a b : Rat) : Bool :=
  decide (a.num * (b.den : Int) < b.num * (a.den : Int))

/-- `score * 1.5`. -/
def ratMul32 (q : Rat) : Rat :=
  mkRat (3 * q.num) (2 * (q.den : Int)).toNat

/-- `target_lower in self.special_cases and source in self.special_cases[target_lower]`. -/
def special_case_hit (target_lower source : String) : Bool :=
  match aLookup special_cases target_lower with
  | some lst => decide (source ∈ lst)
  | none => false

/-- The 0.9-scoring direct variation test of the source loop:
`target_base in self.variations and source.lower() in [v.lower() for v in
self.variations[target_base]]` or the symmetric condition with source and
target swapped. -/
def direct_variation_hit (target target_base source source_base : String) : Bool :=
  (match aLookup variations target_base with
   | some lst => decide (pyLower source ∈ lst.map pyLower)
   | none => false)
  ||
  (match aLookup variations source_base with
   | some lst => decide (pyLower target ∈ lst.map pyLower)
   | none => false)

/-- The `for source in source_fields` loop of `auto_map_fields` (lines
118-171): per source, first the special-case test (score 1.0, break), then
the direct-variation test (score 0.9, break), then token scoring
(`|common| / max(|target_variations|, |source_variations|)`, times 1.5 when
more than one token is shared) which updates the running best on a strict
improvement. -/
def fuzzy_loop (target target_lower target_base : String) (tvars : List String) :
    List String → Option String × Rat → Option String × Rat
  | [], best => best
  | source :: rest, best =>
      let source_base := baseOf (pyLower source)
      if special_case_hit target_lower source then
        (some source, 1)
      else if direct_variation_hit target target_base source source_base then
        (some source, mkRat 9 10)
      else
        let svars := variationSet (splitUnderscore source_base)
        let common := tvars.filter (fun x => decide (x ∈ svars))
        if common.isEmpty then
          fuzzy_loop target target_lower target_base tvars rest best
        else
          let score0 := mkRat common.length (max tvars.length svars.length)
          let score := if common.length > 1 then ratMul32 score0 else score0
          if ratLtB best.2 score then
            fuzzy_loop target target_lower target_base tvars rest (some source, score)
          else
            fuzzy_loop target target_lower target_base tvars rest best

/-- `target_lower == source.lower()` scan, first hit wins. -/
def ci_match (target_lower : String) : List String → Option String
  | [] => none
  | source :: rest => if target_lower = pyLower source then some source else ci_match target_lower rest

/-- The per-target body of `MappingService.auto_map_fields`: exact match,
then case-insensitive match, then the fuzzy source loop; the fuzzy result is
kept only when a best match exists (a nonempty string: Python tests its
truthiness) with score strictly above 0.3. -/
def auto_map_go (sources : List String) : List String → List (String × String) → List (String × String)
  | [], mapping => mapping
  | target :: rest, mapping =>
      if target ∈ sources then
        auto_map_go sources rest (aInsert mapping target target)
      else
        let target_lower := pyLower target
        match ci_match target_lower sources with
        | some source => auto_map_go sources rest (aInsert mapping target source)
        | none =>
            let target_base := baseOf target_lower
            let tvars := variationSet (splitUnderscore target_base)
            let best := fuzzy_loop target target_lower target_base tvars sources (none, 0)
            match best.1 with
            | some bm =>
                if bm ≠ "" ∧ ratLtB (mkRat 3 10) best.2 then
                  auto_map_go sources rest (aInsert mapping target bm)
                else auto_map_go sources rest mapping
            | none => auto_map_go sources rest mapping

/-- `MappingService.auto_map_fields(target_fields, source_fields)`. -/
def auto_map_fields (target_fields source_fields : List String) : List (String × String) :=
  auto_map_go source_fields target_fields []

example : auto_map_fields ["zip_code"] ["PLZ"] = [("zip_code", "PLZ")] := by decide
example : auto_map_fields ["first_name"] ["Vorname"] = [("first_name", "Vorname")] := by decide
example : auto_map_fields ["unrelated_x"] ["totally_different_y"] = [] := by decide
example : auto_map_fields ["zip_code"] ["zip", "PLZ"] = [("zip_code", "zip")] := by decide

/-! ## Association-list lemmas -/

/-- Well-formedness of a dict state: its keys are pairwise distinct (true of
every dict produced by `DataFrame.to_dict` and preserved by the pipeline). -/
abbrev keysNodup (st : PyDict) : Prop := (st.map Prod.fst).Nodup

theorem dLookup_dInsert_self (st : PyDict) (k : String) (v : Val) :
    dLookup (dInsert st k v) k = some v := by
  induction st with
  | nil => simp [dInsert, dLookup]
  | cons hd tl ih =>
      obtain ⟨k0, v0⟩ := hd
      by_cases h : k0 = k <;> simp [dInsert, dLookup, h, ih]

theorem dLookup_dInsert_ne (st : PyDict) (k key : String) (v : Val) (h : key ≠ k) :
    dLookup (dInsert st k v) key = dLookup st key := by
  induction st with
  | nil => simp [dInsert, dLookup, Ne.symm h]
  | cons hd tl ih =>
      obtain ⟨k0, v0⟩ := hd
      by_cases h0 : k0 = k
      · simp [dInsert, dLookup, h0, Ne.symm h]
      · by_cases h1 : k0 = key <;> simp [dInsert, dLookup, h0, h1, h, Ne.symm h, ih]

theorem dLookup_dErase_ne (st : PyDict) (k key : String) (h : key ≠ k) :
    dLookup (dErase st k) key = dLookup st key := by
  induction st with
  | nil => simp [dErase, dLookup]
  | cons hd tl ih =>
      obtain ⟨k0, v0⟩ := hd
      by_cases h0 : k0 = k
      · simp [dErase, dLookup, h0, Ne.symm h]
      · by_cases h1 : k0 = key <;> simp [dErase, dLookup, h0, h1, h, Ne.symm h, ih]

theorem dLookup_append_ne (st : PyDict) (k key : String) (v : Val) (h : key ≠ k) :
    dLookup (st ++ [(k, v)]) key = dLookup st key := by
  induction st with
  | nil => simp [dLookup, Ne.symm h]
  | cons hd tl ih =>
      obtain ⟨k0, v0⟩ := hd
      by_cases h1 : k0 = key <;> simp [dLookup, h1, ih]

theorem dLookup_setdefault_ne (st : PyDict) (k key : String) (v : Val) (h : key ≠ k) :
    dLookup (setdefault st k v) key = dLookup st key := by
  unfold setdefault
  cases dLookup st k with
  | some w => rfl
  | none => exact dLookup_append_ne st k key v h

theorem dLookup_setdefault_of_some (st : PyDict) (k : String) (v w : Val)
    (h : dLookup st k = some w) : dLookup (setdefault st k v) k = some w := by
  unfold setdefault
  rw [h]
  exact h

theorem dLookup_setdefault_of_none (st : PyDict) (k : String) (v : Val)
    (h : dLookup st k = none) : dLookup (setdefault st k v) k = some v := by
  unfold setdefault
  rw [h]
  induction st with
  | nil => simp [dLookup]
  | cons hd tl ih =>
      obtain ⟨k0, v0⟩ := hd
      by_cases h1 : k0 = k
      · simp [dLookup, h1] at h
      · simp only [dLookup, h1, if_false] at h
        simpa [dLookup, h1] using ih h

theorem mem_keys_dInsert (tl : PyDict) (k k0 : String) (v : Val)
    (h : k0 ∈ (dInsert tl k v).map Prod.fst) : k0 ∈ tl.map Prod.fst ∨ k0 = k := by
  induction tl with
  | nil => simpa [dInsert] using h
  | cons hd tl2 ih =>
      obtain ⟨k2, v2⟩ := hd
      by_cases h2 : k2 = k
      · simp only [dInsert, h2, if_true, List.map_cons, List.mem_cons] at h
        rcases h with h3 | h3
        · exact Or.inr h3
        · exact Or.inl (show k0 ∈ k2 :: tl2.map Prod.fst from List.mem_cons_of_mem _ h3)
      · simp only [dInsert, h2, if_false, List.map_cons, List.mem_cons] at h
        rcases h with h3 | h3
        · exact Or.inl (show k0 ∈ k2 :: tl2.map Prod.fst from h3 ▸ List.mem_cons_self _ _)
        · rcases ih h3 with h4 | h4
          · exact Or.inl (show k0 ∈ k2 :: tl2.map Prod.fst from List.mem_cons_of_mem _ h4)
          · exact Or.inr h4

theorem mem_keys_dErase (tl : PyDict) (k k0 : String)
    (h : k0 ∈ (dErase tl k).map Prod.fst) : k0 ∈ tl.map Prod.fst := by
  induction tl with
  | nil => simp [dErase] at h
  | cons hd tl2 ih =>
      obtain ⟨k2, v2⟩ := hd
      by_cases h2 : k2 = k
      · simp only [dErase, h2, if_true] at h
        simp [h]
      · simp only [dErase, h2, if_false, List.map_cons, List.mem_cons] at h
        rcases h with h3 | h3
        · simp [h3]
        · simp [ih h3]

theorem dLookup_ne_none_of_mem_keys (st : PyDict) (a : String)
    (h : a ∈ st.map Prod.fst) : dLookup st a ≠ none := by
  induction st with
  | nil => simp at h
  | cons hd tl ih =>
      obtain ⟨k0, v0⟩ := hd
      simp only [List.map_cons, List.mem_cons] at h
      by_cases h2 : k0 = a
      · simp [dLookup, h2]
      · rcases h with h1 | h1
        · exact absurd h1.symm h2
        · simpa [dLookup, h2] using ih h1

theorem keysNodup_dInsert (st : PyDict) (k : String) (v : Val) (h : keysNodup st) :
    keysNodup (dInsert st k v) := by
  induction st with
  | nil => simp [keysNodup, dInsert]
  | cons hd tl ih =>
      obtain ⟨k0, v0⟩ := hd
      unfold keysNodup at h
      simp only [List.map_cons, List.nodup_cons] at h
      by_cases h0 : k0 = k
      · unfold keysNodup
        simpa [dInsert, h0] using h
      · have htl := ih h.2
        unfold keysNodup at htl ⊢
        simp only [dInsert, h0, if_false, List.map_cons, List.nodup_cons]
        refine ⟨?_, htl⟩
        intro hmem
        rcases mem_keys_dInsert tl k k0 v hmem with h3 | h3
        · exact h.1 h3
        · exact h0 h3

theorem keysNodup_dErase (st : PyDict) (k : String) (h : keysNodup st) :
    keysNodup (dErase st k) := by
  induction st with
  | nil => simp [keysNodup, dErase]
  | cons hd tl ih =>
      obtain ⟨k0, v0⟩ := hd
      unfold keysNodup at h
      simp only [List.map_cons, List.nodup_cons] at h
      by_cases h0 : k0 = k
      · unfold keysNodup
        simp [dErase, h0, h.2]
      · have htl := ih h.2
        unfold keysNodup at htl ⊢
        simp only [dErase, h0, if_false, List.map_cons, List.nodup_cons]
        exact ⟨fun hmem => h.1 (mem_keys_dErase tl k k0 hmem), htl⟩

theorem keysNodup_setdefault (st : PyDict) (k : String) (v : Val) (h : keysNodup st) :
    keysNodup (setdefault st k v) := by
  unfold setdefault
  cases hl : dLookup st k with
  | some w => exact h
  | none =>
      unfold keysNodup at h ⊢
      rw [List.map_append, List.nodup_append]
      refine ⟨h, by simp, ?_⟩
      intro a ha hb
      simp only [List.map_cons, List.map_nil, List.mem_singleton] at hb
      subst hb
      exact dLookup_ne_none_of_mem_keys st a ha hl

theorem dLookup_eq_some_of_mem (st : PyDict) (k : String) (v : Val)
    (hn : keysNodup st) (hm : (k, v) ∈ st) : dLookup st k = some v := by
  induction st with
  | nil => simp at hm
  | cons hd tl ih =>
      obtain ⟨k0, v0⟩ := hd
      unfold keysNodup at hn
      simp only [List.map_cons, List.nodup_cons] at hn
      simp only [List.mem_cons] at hm
      rcases hm with h1 | h1
      · have hk : k = k0 := congrArg Prod.fst h1
        have hv : v = v0 := congrArg Prod.snd h1
        subst hk
        subst hv
        simp [dLookup]
      · by_cases h2 : k0 = k
        · exact absurd (h2 ▸ List.mem_map_of_mem Prod.fst h1) hn.1
        · simpa [dLookup, h2] using ih hn.2 h1

/-! ## Set-deduplication lemmas -/

theorem mem_foldl_setStep {α : Type} [DecidableEq α] (l : List α) :
    ∀ acc x, (x ∈ l.foldl (fun acc y => if y ∈ acc then acc else acc ++ [y]) acc) ↔
      (x ∈ acc ∨ x ∈ l) := by
  induction l with
  | nil => simp
  | cons hd tl ih =>
      intro acc x
      simp only [List.foldl_cons]
      by_cases h : hd ∈ acc
      · rw [if_pos h, ih]
        constructor
        · rintro (h1 | h1)
          · exact Or.inl h1
          · exact Or.inr (List.mem_cons_of_mem _ h1)
        · rintro (h1 | h1)
          · exact Or.inl h1
          · rcases List.mem_cons.1 h1 with h2 | h2
            · exact Or.inl (h2 ▸ h)
            · exact Or.inr h2
      · rw [if_neg h, ih]
        constructor
        · rintro (h1 | h1)
          · rcases List.mem_append.1 h1 with h2 | h2
            · exact Or.inl h2
            · simp only [List.mem_singleton] at h2
              exact Or.inr (h2 ▸ List.mem_cons_self _ _)
          · exact Or.inr (List.mem_cons_of_mem _ h1)
        · rintro (h1 | h1)
          · exact Or.inl (List.mem_append.2 (Or.inl h1))
          · rcases List.mem_cons.1 h1 with h2 | h2
            · exact Or.inl (List.mem_append.2 (Or.inr (by simp [h2])))
            · exact Or.inr h2

theorem nodup_foldl_setStep {α : Type} [DecidableEq α] (l : List α) :
    ∀ acc : List α, acc.Nodup →
      (l.foldl (fun acc y => if y ∈ acc then acc else acc ++ [y]) acc).Nodup := by
  induction l with
  | nil => intro acc h; simpa using h
  | cons hd tl ih =>
      intro acc h
      simp only [List.foldl_cons]
      by_cases hm : hd ∈ acc
      · rw [if_pos hm]; exact ih acc h
      · rw [if_neg hm]
        exact ih _ (by simp [List.nodup_append, h, hm])

theorem mem_pyDedup {α : Type} [DecidableEq α] (l : List α) (x : α) :
    x ∈ pyDedup l ↔ x ∈ l := by
  unfold pyDedup
  rw [mem_foldl_setStep]
  simp

theorem nodup_pyDedup {α : Type} [DecidableEq α] (l : List α) : (pyDedup l).Nodup :=
  nodup_foldl_setStep l [] (by simp)

/-! ## One-step characterization of the `merge_lists` loop body -/

/-- The effect of one iteration of the `merge_lists` loop on the dict state
(everything the body does for the snapshot item `(k, v)` except the recursive
continuation on the remaining items). -/
def merge_head (fuel : Nat) (rn : Bool) (st : PyDict) (k : String) (v : Val) :
    Except PyErr PyDict :=
  match pd_isnull_truth v with
  | .error e => .error e
  | .ok isn =>
    let st1 := if isn then (if rn then dErase st k else dInsert st k .null) else st
    match v with
    | .dict entries =>
        let values := entries.map Prod.snd
        if columnar_all values then
          let rows := zipRows values (firstLen values)
          if rows.all (fun r => r.all hashable) then
            .ok (dInsert st1 k (.list ((pyDedup rows).map (rowObj (entries.map Prod.fst)))))
          else .error .typeError
        else
          match merge_lists_go fuel entries rn entries with
          | .error e => .error e
          | .ok entries2 => .ok (dInsert st1 k (.dict entries2))
    | .list l =>
        if l.all hashable then .ok (dInsert st1 k (.list (pyDedup l)))
        else .error .typeError
    | _ => .ok st1

theorem merge_go_cons (fuel : Nat) (rn : Bool) (st : PyDict) (k : String) (v : Val)
    (rest : List (String × Val)) :
    merge_lists_go (fuel + 1) ((k, v) :: rest) rn st =
      match merge_head fuel rn st k v with
      | .error e => .error e
      | .ok st' => merge_lists_go fuel rest rn st' := by
  cases hpd : pd_isnull_truth v with
  | error e =>
      cases v <;> simp only [merge_lists_go, merge_head, hpd]
  | ok isn =>
      cases v with
      | dict entries =>
          simp only [merge_lists_go, merge_head, hpd]
          by_cases hca : columnar_all (entries.map Prod.snd)
          · simp only [hca, if_true]
            by_cases hrows :
                (zipRows (entries.map Prod.snd) (firstLen (entries.map Prod.snd))).all
                  (fun r => r.all hashable)
            · simp [hrows]
            · simp [hrows]
          · simp only [hca, if_false]
            cases hrec : merge_lists_go fuel entries rn entries <;> simp [hrec]
      | list l =>
          simp only [merge_lists_go, merge_head, hpd]
          by_cases hhash : l.all hashable
          · simp [hhash]
          · simp [hhash]
      | null => simp only [merge_lists_go, merge_head, hpd]
      | num q => simp only [merge_lists_go, merge_head, hpd]
      | str s => simp only [merge_lists_go, merge_head, hpd]
      | boolean b => simp only [merge_lists_go, merge_head, hpd]

theorem merge_head_lookup_ne (fuel : Nat) (rn : Bool) (st st' : PyDict) (k K : String)
    (v : Val) (hne : K ≠ k) (h : merge_head fuel rn st k v = .ok st') :
    dLookup st' K = dLookup st K := by
  unfold merge_head at h
  cases hpd : pd_isnull_truth v with
  | error e => rw [hpd] at h; cases h
  | ok isn =>
      rw [hpd] at h
      have hst1 : dLookup (if isn then (if rn then dErase st k else dInsert st k Val.null)
          else st) K = dLookup st K := by
        cases isn <;> cases rn <;>
          simp [dLookup_dErase_ne st k K hne, dLookup_dInsert_ne st k K Val.null hne]
      cases v with
      | dict entries =>
          simp only at h
          by_cases hca : columnar_all (entries.map Prod.snd)
          · rw [if_pos hca] at h
            by_cases hrows :
                (zipRows (entries.map Prod.snd) (firstLen (entries.map Prod.snd))).all
                  (fun r => r.all hashable)
            · rw [if_pos hrows] at h
              cases h
              rw [dLookup_dInsert_ne _ k K _ hne]
              exact hst1
            · rw [if_neg hrows] at h; cases h
          · rw [if_neg hca] at h
            cases hrec : merge_lists_go fuel entries rn entries with
            | error e => rw [hrec] at h; cases h
            | ok e2 =>
                rw [hrec] at h
                cases h
                rw [dLookup_dInsert_ne _ k K _ hne]
                exact hst1
      | list l =>
          simp only at h
          by_cases hhash : l.all hashable
          · rw [if_pos hhash] at h
            cases h
            rw [dLookup_dInsert_ne _ k K _ hne]
            exact hst1
          · rw [if_neg hhash] at h; cases h
      | null => cases h; exact hst1
      | num q => cases h; exact hst1
      | str s => cases h; exact hst1
      | boolean b => cases h; exact hst1

theorem merge_head_keysNodup (fuel : Nat) (rn : Bool) (st st' : PyDict) (k : String)
    (v : Val) (hn : keysNodup st) (h : merge_head fuel rn st k v = .ok st') :
    keysNodup st' := by
  unfold merge_head at h
  cases hpd : pd_isnull_truth v with
  | error e => rw [hpd] at h; cases h
  | ok isn =>
      rw [hpd] at h
      have hst1 : keysNodup (if isn then (if rn then dErase st k else dInsert st k Val.null)
          else st) := by
        cases isn <;> cases rn <;>
          simp [keysNodup_dErase st k hn, keysNodup_dInsert st k Val.null hn, hn]
      cases v with
      | dict entries =>
          simp only at h
          by_cases hca : columnar_all (entries.map Prod.snd)
          · rw [if_pos hca] at h
            by_cases hrows :
                (zipRows (entries.map Prod.snd) (firstLen (entries.map Prod.snd))).all
                  (fun r => r.all hashable)
            · rw [if_pos hrows] at h
              cases h
              exact keysNodup_dInsert _ k _ hst1
            · rw [if_neg hrows] at h; cases h
          · rw [if_neg hca] at h
            cases hrec : merge_lists_go fuel entries rn entries with
            | error e => rw [hrec] at h; cases h
            | ok e2 =>
                rw [hrec] at h
                cases h
                exact keysNodup_dInsert _ k _ hst1
      | list l =>
          simp only at h
          by_cases hhash : l.all hashable
          · rw [if_pos hhash] at h
            cases h
            exact keysNodup_dInsert _ k _ hst1
          · rw [if_neg hhash] at h; cases h
      | null => cases h; exact hst1
      | num q => cases h; exact hst1
      | str s => cases h; exact hst1
      | boolean b => cases h; exact hst1

theorem mem_keys_of_dLookup_some (st : PyDict) (k : String) (w : Val)
    (h : dLookup st k = some w) : k ∈ st.map Prod.fst := by
  induction st with
  | nil => simp [dLookup] at h
  | cons hd tl ih =>
      obtain ⟨k0, v0⟩ := hd
      by_cases h0 : k0 = k
      · simp [h0]
      · simp only [dLookup, h0, if_false] at h
        exact List.mem_cons_of_mem _ (ih h)

theorem dLookup_dErase_self (st : PyDict) (k : String) (hn : keysNodup st) :
    dLookup (dErase st k) k = none := by
  induction st with
  | nil => simp [dErase, dLookup]
  | cons hd tl ih =>
      obtain ⟨k0, v0⟩ := hd
      unfold keysNodup at hn
      simp only [List.map_cons, List.nodup_cons] at hn
      by_cases h0 : k0 = k
      · simp only [dErase, h0, if_true]
        cases hl : dLookup tl k with
        | none => rfl
        | some w =>
            exact absurd (h0 ▸ mem_keys_of_dLookup_some tl k w hl) hn.1
      · simp only [dErase, h0, if_false, dLookup]
        exact ih hn.2

/-- A non-null scalar value: left untouched by the `merge_lists` walk. -/
def plainScalar : Val → Bool
  | .num _ => true
  | .str _ => true
  | .boolean _ => true
  | _ => false

theorem merge_go_lookup_preserved :
    ∀ fuel items rn st r K, (∀ p ∈ items, p.1 ≠ K) →
      merge_lists_go fuel items rn st = .ok r → dLookup r K = dLookup st K := by
  intro fuel
  induction fuel with
  | zero =>
      intro items rn st r K _ h
      simp [merge_lists_go] at h
  | succ f ih =>
      intro items rn st r K hks h
      cases items with
      | nil =>
          simp only [merge_lists_go] at h
          cases h
          rfl
      | cons hd rest =>
          obtain ⟨k0, v0⟩ := hd
          rw [merge_go_cons] at h
          cases hh : merge_head f rn st k0 v0 with
          | error e => rw [hh] at h; cases h
          | ok st' =>
              rw [hh] at h
              have h1 := ih rest rn st' r K (fun p hp => hks p (List.mem_cons_of_mem _ hp)) h
              rw [h1]
              exact merge_head_lookup_ne f rn st st' k0 K v0
                (Ne.symm (hks (k0, v0) (List.mem_cons_self _ _))) hh

theorem not_mem_rest_keys {items : List (String × Val)} {k0 : String} {v0 : Val}
    {rest : List (String × Val)}
    (he : items = (k0, v0) :: rest) (hn : (items.map Prod.fst).Nodup) :
    ∀ p ∈ rest, p.1 ≠ k0 := by
  subst he
  simp only [List.map_cons, List.nodup_cons] at hn
  intro p hp hpk
  exact hn.1 (hpk ▸ List.mem_map_of_mem Prod.fst hp)

theorem merge_null_entry :
    ∀ fuel items rn st r k, (items.map Prod.fst).Nodup → keysNodup st →
      (k, Val.null) ∈ items → merge_lists_go fuel items rn st = .ok r →
      (rn = true → dLookup r k = none) ∧ (rn = false → dLookup r k = some Val.null) := by
  intro fuel
  induction fuel with
  | zero =>
      intro items rn st r k _ _ _ h
      simp [merge_lists_go] at h
  | succ f ih =>
      intro items rn st r k hnodup hst hm h
      cases items with
      | nil => simp at hm
      | cons hd rest =>
          obtain ⟨k0, v0⟩ := hd
          rw [merge_go_cons] at h
          cases hh : merge_head f rn st k0 v0 with
          | error e => rw [hh] at h; cases h
          | ok st' =>
              rw [hh] at h
              rcases List.mem_cons.1 hm with heq | hmem
              · have hk : k = k0 := congrArg Prod.fst heq
                have hv : Val.null = v0 := congrArg Prod.snd heq
                subst hk
                rw [← hv] at hh
                simp only [merge_head, pd_isnull_truth, if_true] at hh
                have hrest : ∀ p ∈ rest, p.1 ≠ k := not_mem_rest_keys rfl hnodup
                have hpres := merge_go_lookup_preserved f rest rn st' r k hrest h
                cases hh
                constructor
                · intro hrn
                  subst hrn
                  rw [hpres]
                  simp only [if_true]
                  exact dLookup_dErase_self st k hst
                · intro hrn
                  subst hrn
                  rw [hpres]
                  simp only [Bool.false_eq_true, if_false]
                  exact dLookup_dInsert_self st k Val.null
              · have hk0 : k ≠ k0 := by
                  intro hkk
                  have := not_mem_rest_keys rfl hnodup (k, Val.null) hmem
                  exact this hkk
                exact ih rest rn st' r k
                  (by simp only [List.map_cons, List.nodup_cons] at hnodup; exact hnodup.2)
                  (merge_head_keysNodup f rn st st' k0 v0 hst hh) hmem h

theorem merge_columnar_entry :
    ∀ fuel items rn st r k e, (items.map Prod.fst).Nodup →
      (k, Val.dict e) ∈ items →
      columnar_all (e.map Prod.snd) = true →
      ((zipRows (e.map Prod.snd) (firstLen (e.map Prod.snd))).all
        (fun row => row.all hashable)) = true →
      merge_lists_go fuel items rn st = .ok r →
      dLookup r k = some (.list
        ((pyDedup (zipRows (e.map Prod.snd) (firstLen (e.map Prod.snd)))).map
          (rowObj (e.map Prod.fst)))) := by
  intro fuel
  induction fuel with
  | zero =>
      intro items rn st r k e _ _ _ _ h
      simp [merge_lists_go] at h
  | succ f ih =>
      intro items rn st r k e hnodup hm hca hrows h
      cases items with
      | nil => simp at hm
      | cons hd rest =>
          obtain ⟨k0, v0⟩ := hd
          rw [merge_go_cons] at h
          cases hh : merge_head f rn st k0 v0 with
          | error err => rw [hh] at h; cases h
          | ok st' =>
              rw [hh] at h
              rcases List.mem_cons.1 hm with heq | hmem
              · have hk : k = k0 := congrArg Prod.fst heq
                have hv : Val.dict e = v0 := congrArg Prod.snd heq
                subst hk
                rw [← hv] at hh
                simp only [merge_head, pd_isnull_truth, hca, hrows, if_true,
                  Bool.false_eq_true, if_false] at hh
                have hrest : ∀ p ∈ rest, p.1 ≠ k := not_mem_rest_keys rfl hnodup
                have hpres := merge_go_lookup_preserved f rest rn st' r k hrest h
                cases hh
                rw [hpres]
                exact dLookup_dInsert_self st k _
              · exact ih rest rn st' r k e
                  (by simp only [List.map_cons, List.nodup_cons] at hnodup; exact hnodup.2)
                  hmem hca hrows h

theorem merge_scalar_entry :
    ∀ fuel items rn st r k v, (items.map Prod.fst).Nodup →
      (k, v) ∈ items → plainScalar v = true →
      merge_lists_go fuel items rn st = .ok r →
      dLookup r k = dLookup st k := by
  intro fuel
  induction fuel with
  | zero =>
      intro items rn st r k v _ _ _ h
      simp [merge_lists_go] at h
  | succ f ih =>
      intro items rn st r k v hnodup hm hps h
      cases items with
      | nil => simp at hm
      | cons hd rest =>
          obtain ⟨k0, v0⟩ := hd
          rw [merge_go_cons] at h
          cases hh : merge_head f rn st k0 v0 with
          | error err => rw [hh] at h; cases h
          | ok st' =>
              rw [hh] at h
              rcases List.mem_cons.1 hm with heq | hmem
              · have hk : k = k0 := congrArg Prod.fst heq
                have hv : v = v0 := congrArg Prod.snd heq
                subst hk
                rw [← hv] at hh
                have hst' : st' = st := by
                  cases v with
                  | num q => simp only [merge_head, pd_isnull_truth, Bool.false_eq_true,
                      if_false, Except.ok.injEq] at hh; exact hh.symm
                  | str s => simp only [merge_head, pd_isnull_truth, Bool.false_eq_true,
                      if_false, Except.ok.injEq] at hh; exact hh.symm
                  | boolean b => simp only [merge_head, pd_isnull_truth, Bool.false_eq_true,
                      if_false, Except.ok.injEq] at hh; exact hh.symm
                  | null => simp [plainScalar] at hps
                  | list l => simp [plainScalar] at hps
                  | dict e => simp [plainScalar] at hps
                have hrest : ∀ p ∈ rest, p.1 ≠ k := not_mem_rest_keys rfl hnodup
                rw [merge_go_lookup_preserved f rest rn st' r k hrest h, hst']
              · have hk0 : k ≠ k0 := by
                  intro hkk
                  exact not_mem_rest_keys rfl hnodup (k, v) hmem hkk
                rw [ih rest rn st' r k v
                  (by simp only [List.map_cons, List.nodup_cons] at hnodup; exact hnodup.2)
                  hmem hps h]
                exact merge_head_lookup_ne f rn st st' k0 k v0 hk0 hh

theorem merge_flatdict_entry :
    ∀ fuel items rn st r k e, (items.map Prod.fst).Nodup →
      (k, Val.dict e) ∈ items →
      columnar_all (e.map Prod.snd) = false →
      merge_lists_go fuel items rn st = .ok r →
      ∃ fuel2 e2, merge_lists_go fuel2 e rn e = .ok e2 ∧
        dLookup r k = some (.dict e2) := by
  intro fuel
  induction fuel with
  | zero =>
      intro items rn st r k e _ _ _ h
      simp [merge_lists_go] at h
  | succ f ih =>
      intro items rn st r k e hnodup hm hca h
      cases items with
      | nil => simp at hm
      | cons hd rest =>
          obtain ⟨k0, v0⟩ := hd
          rw [merge_go_cons] at h
          cases hh : merge_head f rn st k0 v0 with
          | error err => rw [hh] at h; cases h
          | ok st' =>
              rw [hh] at h
              rcases List.mem_cons.1 hm with heq | hmem
              · have hk : k = k0 := congrArg Prod.fst heq
                have hv : Val.dict e = v0 := congrArg Prod.snd heq
                subst hk
                rw [← hv] at hh
                simp only [merge_head, pd_isnull_truth, hca, Bool.false_eq_true,
                  if_false] at hh
                cases hrec : merge_lists_go f e rn e with
                | error err2 => rw [hrec] at hh; cases hh
                | ok e2 =>
                    rw [hrec] at hh
                    simp only [Except.ok.injEq] at hh
                    refine ⟨f, e2, hrec, ?_⟩
                    have hrest : ∀ p ∈ rest, p.1 ≠ k := not_mem_rest_keys rfl hnodup
                    rw [merge_go_lookup_preserved f rest rn st' r k hrest h, ← hh]
                    exact dLookup_dInsert_self st k _
              · exact ih rest rn st' r k e
                  (by simp only [List.map_cons, List.nodup_cons] at hnodup; exact hnodup.2)
                  hmem hca h

theorem zip_inj (keys : List String) :
    ∀ t1 t2 : List Val, t1.length = keys.length → t2.length = keys.length →
      keys.zip t1 = keys.zip t2 → t1 = t2 := by
  induction keys with
  | nil =>
      intro t1 t2 h1 h2 _
      cases t1 <;> cases t2 <;> simp_all
  | cons k0 ks ih =>
      intro t1 t2 h1 h2 hz
      cases t1 with
      | nil => simp at h1
      | cons a as =>
          cases t2 with
          | nil => simp at h2
          | cons b bs =>
              simp only [List.zip_cons_cons, List.cons.injEq, Prod.mk.injEq] at hz
              simp only [List.length_cons, Nat.succ.injEq] at h1 h2
              rw [hz.1.2, ih as bs h1 h2 hz.2]

theorem mem_zipRows_length (values : List Val) (n : Nat) (row : List Val)
    (h : row ∈ zipRows values n) : row.length = values.length := by
  unfold zipRows at h
  rcases List.mem_map.1 h with ⟨i, _, hrow⟩
  rw [← hrow, List.length_map]

/-- C3 counterexample: the record `{"x": {}}` — a nested mapping with zero
children — is replaced by the empty ARRAY by `merge_lists` (the equal-length
check `all(...)` is vacuously true on zero children), not handled as an
ordinary nested mapping. -/
theorem C3_counterexample :
    merge_lists 9 [("x", Val.dict [])] false = .ok [("x", Val.list [])] ∧
    merge_lists 9 [("x", Val.dict [])] false ≠ .ok [("x", Val.dict [])] :=
  ⟨rfl, by decide⟩

/-- C3 (amended): a nested-mapping value with zero children IS classified as
a columnar table — the equal-length guard is vacuously true — and is
replaced by the EMPTY array, without raising; it does not fall through to
ordinary-mapping treatment. -/
theorem C3_empty_mapping_becomes_empty_array :
    ∀ fuel dic rn r k, keysNodup dic → (k, Val.dict []) ∈ dic →
      merge_lists fuel dic rn = .ok r → dLookup r k = some (Val.list []) := by
  intro fuel dic rn r k hn hm h
  have hres := merge_columnar_entry fuel dic rn dic r k [] hn hm rfl rfl h
  simpa [zipRows, firstLen, pyDedup] using hres

/-- Witness for the amended C3 at the record `{"x": {}, "y": 1}`. -/
theorem C3_empty_mapping_witness :
    dLookup [("x", Val.list []), ("y", Val.num 1)] "x" = some (Val.list []) :=
  C3_empty_mapping_becomes_empty_array 9 [("x", Val.dict []), ("y", Val.num 1)] false
    [("x", Val.list []), ("y", Val.num 1)] "x" (by decide) (by simp) rfl

/-- C4: a nested mapping whose child values are equal-length lists is
replaced by the array of per-index objects with exact duplicates removed
(set semantics: membership is exactly the set of row objects, and the result
is duplicate-free); in particular `{"x": {"y": [1,1,2], "z":
["a","a","b"]}}` reshapes `x` to exactly the two distinct objects
`{y:1,z:"a"}` and `{y:2,z:"b"}`. -/
theorem C4_columnar_table_merge :
    (∀ fuel dic rn r k e, keysNodup dic → (k, Val.dict e) ∈ dic →
      columnar_all (e.map Prod.snd) = true →
      ((zipRows (e.map Prod.snd) (firstLen (e.map Prod.snd))).all
        (fun row => row.all hashable)) = true →
      merge_lists fuel dic rn = .ok r →
      ∃ objs, dLookup r k = some (.list objs) ∧
        (∀ o, o ∈ objs ↔
          ∃ row ∈ zipRows (e.map Prod.snd) (firstLen (e.map Prod.snd)),
            o = rowObj (e.map Prod.fst) row) ∧
        objs.Nodup) ∧
    merge_lists 9 [("x", Val.dict [("y", Val.list [Val.num 1, Val.num 1, Val.num 2]),
        ("z", Val.list [Val.str "a", Val.str "a", Val.str "b"])])] false =
      .ok [("x", Val.list [Val.dict [("y", Val.num 1), ("z", Val.str "a")],
        Val.dict [("y", Val.num 2), ("z", Val.str "b")]])] := by
  constructor
  · intro fuel dic rn r k e hn hm hca hrows h
    refine ⟨_, merge_columnar_entry fuel dic rn dic r k e hn hm hca hrows h, ?_, ?_⟩
    · intro o
      rw [List.mem_map]
      constructor
      · rintro ⟨row, hrow, hobj⟩
        exact ⟨row, (mem_pyDedup _ row).1 hrow, hobj.symm⟩
      · rintro ⟨row, hrow, hobj⟩
        exact ⟨row, (mem_pyDedup _ row).2 hrow, hobj.symm⟩
    · apply (nodup_pyDedup _).map_on
      intro t1 h1 t2 h2 heq
      have hl1 := mem_zipRows_length _ _ t1 ((mem_pyDedup _ t1).1 h1)
      have hl2 := mem_zipRows_length _ _ t2 ((mem_pyDedup _ t2).1 h2)
      unfold rowObj at heq
      have hzip := Val.dict.inj heq
      exact zip_inj (e.map Prod.fst) t1 t2
        (by rw [hl1, List.length_map, List.length_map])
        (by rw [hl2, List.length_map, List.length_map]) hzip
  · rfl

/-- Witness for the general part of C4 at `{"x": {"y": [1,2]}}`. -/
theorem C4_columnar_witness :
    ∃ objs, dLookup [("x", Val.list [Val.dict [("y", Val.num 1)],
        Val.dict [("y", Val.num 2)]])] "x" = some (.list objs) ∧
      (∀ o, o ∈ objs ↔
        ∃ row ∈ zipRows [Val.list [Val.num 1, Val.num 2]] 2, o = rowObj ["y"] row) ∧
      objs.Nodup :=
  C4_columnar_table_merge.1 9 [("x", Val.dict [("y", Val.list [Val.num 1, Val.num 2])])]
    false [("x", Val.list [Val.dict [("y", Val.num 1)], Val.dict [("y", Val.num 2)]])]
    "x" [("y", Val.list [Val.num 1, Val.num 2])] (by decide) (by simp) rfl rfl rfl

/-- C5: a null value is deleted by the reshape step when `strip_nulls` is
true and normalized to an explicit null when it is false, with the quoted
records behaving exactly as the spec's example says. -/
theorem C5_null_handling :
    (∀ fuel dic rn r k, keysNodup dic → (k, Val.null) ∈ dic →
        merge_lists fuel dic rn = .ok r →
        (rn = true → dLookup r k = none) ∧ (rn = false → dLookup r k = some Val.null)) ∧
    reshape 9 [("a", Val.null), ("b", Val.num 1)] true = .ok [("b", Val.num 1)] ∧
    reshape 9 [("a", Val.null), ("b", Val.num 1)] false =
      .ok [("a", Val.null), ("b", Val.num 1)] := by
  refine ⟨?_, rfl, rfl⟩
  intro fuel dic rn r k hn hm h
  exact merge_null_entry fuel dic rn dic r k hn hn hm h

/-- Witness for the general part of C5 at `{"a": null, "b": 1}`. -/
theorem C5_null_witness :
    (true = true → dLookup [("b", Val.num 1)] "a" = none) ∧
    (true = false → dLookup [("b", Val.num 1)] "a" = some Val.null) :=
  C5_null_handling.1 9 [("a", Val.null), ("b", Val.num 1)] true [("b", Val.num 1)] "a"
    (by decide) (by simp) rfl

/-- C8: `merge_lists` RAISES on a bare two-element list value — `pd.isnull`
of a list is a numpy boolean array whose truth value is ambiguous — instead
of deduplicating it; only a one-element bare list reaches the dedup branch. -/
theorem C8_bare_list_raises :
    merge_lists 9 [("tags", Val.list [Val.num 1, Val.num 2])] false = .error .valueError ∧
    merge_lists 9 [("t", Val.list [Val.num 1]), ("u", Val.num 7)] false =
      .ok [("t", Val.list [Val.num 1]), ("u", Val.num 7)] :=
  ⟨rfl, rfl⟩

/-! ## String splitting lemmas -/

/-- Whether a key contains a dot (drives the `len(subkeys) > 1` branch of
`unflatten_dic`). -/
def hasDot (s : String) : Bool := decide ('.' ∈ s.toList)

theorem splitDotsC_no_dot : ∀ cs : List Char, '.' ∉ cs → splitDotsC cs = [cs] := by
  intro cs
  induction cs with
  | nil => intro _; rfl
  | cons c rest ih =>
      intro h
      have hc : ¬ c = '.' := fun hc => h (hc ▸ List.mem_cons_self _ _)
      have hrest : '.' ∉ rest := fun hr => h (List.mem_cons_of_mem _ hr)
      simp only [splitDotsC, hc, if_false, ih hrest]

theorem splitDotsC_append :
    ∀ a b : List Char, '.' ∉ a → splitDotsC (a ++ '.' :: b) = a :: splitDotsC b := by
  intro a
  induction a with
  | nil => intro b _; simp [splitDotsC]
  | cons c a2 ih =>
      intro b h
      have hc : ¬ c = '.' := fun hc => h (hc ▸ List.mem_cons_self _ _)
      have ha2 : '.' ∉ a2 := fun hr => h (List.mem_cons_of_mem _ hr)
      simp only [List.cons_append, splitDotsC, hc, if_false]
      rw [show a2.append ('.' :: b) = a2 ++ '.' :: b from rfl, ih b ha2]

theorem splitDotsC_ne_nil : ∀ cs : List Char, splitDotsC cs ≠ [] := by
  intro cs
  cases cs with
  | nil => simp [splitDotsC]
  | cons c rest =>
      by_cases hc : c = '.'
      · simp [splitDotsC, hc]
      · simp only [splitDotsC, hc, if_false]
        cases hs : splitDotsC rest with
        | nil => simp
        | cons s ss => simp

theorem toList_concat3 (p x : String) :
    (p ++ "." ++ x).toList = p.toList ++ '.' :: x.toList := by
  show ((p ++ ".") ++ x).data = p.data ++ '.' :: x.data
  rw [String.data_append, String.data_append]
  simp

theorem pySplitDot_single (s : String) (h : hasDot s = false) : pySplitDot s = [s] := by
  unfold pySplitDot
  rw [splitDotsC_no_dot s.toList (by simpa [hasDot] using h)]
  simp only [List.map_cons, List.map_nil]
  rw [show String.mk s.toList = s from rfl]

theorem pySplitDot_concat (p x : String) (hp : hasDot p = false) :
    pySplitDot (p ++ "." ++ x) = p :: pySplitDot x := by
  unfold pySplitDot
  rw [toList_concat3, splitDotsC_append _ _ (by simpa [hasDot] using hp)]
  simp only [List.map_cons]
  rw [show String.mk p.toList = p from rfl]

theorem pySplitDot_ne_nil (s : String) : pySplitDot s ≠ [] := by
  unfold pySplitDot
  intro h
  exact splitDotsC_ne_nil s.toList (List.map_eq_nil_iff.1 h)

theorem pySplitDot_concat_len (p x : String) (hp : hasDot p = false) :
    1 < (pySplitDot (p ++ "." ++ x)).length := by
  rw [pySplitDot_concat p x hp]
  cases hs : pySplitDot x with
  | nil => exact absurd hs (pySplitDot_ne_nil x)
  | cons s ss => simp

theorem not_dotted_of_no_dot (k : String) (h : hasDot k = false) :
    ¬ 1 < (pySplitDot k).length := by
  rw [pySplitDot_single k h]
  simp

/-! ## One-step characterization of the `unflatten_dic` loop body -/

/-- The effect of one iteration of the `unflatten_dic` loop on the dict
state (the body for snapshot item `(k, v)`, without the continuation on the
remaining items). -/
def unflatten_head (fuel : Nat) (st : PyDict) (k : String) (v : Val) :
    Except PyErr PyDict :=
  let subkeys := pySplitDot k
  if subkeys.length > 1 then
    let s0 := subkeys.headD ""
    let st1 := setdefault st s0 (.dict [])
    match dLookup st1 s0 with
    | some (.dict child) =>
        let child1 := dInsert child (String.join (subkeys.drop 1)) v
        match unflatten_go fuel child1 child1 with
        | .error e => .error e
        | .ok child2 =>
            let st2 := dInsert st1 s0 (.dict child2)
            match dLookup st2 k with
            | some _ => .ok (dErase st2 k)
            | none => .error .keyError
    | some _ => .error .attributeError
    | none => .error .attributeError
  else .ok st

theorem unflatten_go_cons (fuel : Nat) (st : PyDict) (k : String) (v : Val)
    (rest : List (String × Val)) :
    unflatten_go (fuel + 1) ((k, v) :: rest) st =
      match unflatten_head fuel st k v with
      | .error e => .error e
      | .ok st' => unflatten_go fuel rest st' := by
  simp only [unflatten_go, unflatten_head]
  repeat' split
  all_goals
    rename_i heq
  all_goals
    first
    | rfl
    | exact heq
    | cases heq
  all_goals rfl

theorem unflatten_head_lookup_ne (fuel : Nat) (st st' : PyDict) (k : String) (v : Val)
    (K : String) (hK : hasDot K = false) (hne : K ≠ (pySplitDot k).headD "")
    (h : unflatten_head fuel st k v = .ok st') :
    dLookup st' K = dLookup st K := by
  simp only [unflatten_head] at h
  split at h
  · rename_i hlen
    split at h
    · rename_i child hl
      split at h
      · cases h
      · rename_i child2 hrec
        split at h
        · rename_i u hdel
          cases h
          have hkK : K ≠ k := fun hkk => not_dotted_of_no_dot k (hkk ▸ hK) hlen
          rw [dLookup_dErase_ne _ k K hkK, dLookup_dInsert_ne _ _ K _ hne,
            dLookup_setdefault_ne _ _ K _ hne]
        · cases h
    · cases h
    · cases h
  · cases h
    rfl

theorem unflatten_head_clash_error (fuel : Nat) (st : PyDict) (k p : String) (v w : Val)
    (hlen : 1 < (pySplitDot k).length) (hhd : (pySplitDot k).headD "" = p)
    (hw : dLookup st p = some w) (hnd : ∀ e, w ≠ Val.dict e) :
    ∀ st', unflatten_head fuel st k v ≠ .ok st' := by
  intro st' h
  simp only [unflatten_head] at h
  rw [if_pos hlen, hhd, dLookup_setdefault_of_some st p (.dict []) w hw] at h
  cases w with
  | dict child => exact hnd child rfl
  | null => cases h
  | num q => cases h
  | str s => cases h
  | boolean b => cases h
  | list l => cases h

theorem unflatten_clash_no_ok :
    ∀ fuel items st p x v w r, hasDot p = false →
      (p ++ "." ++ x, v) ∈ items → dLookup st p = some w → (∀ e, w ≠ Val.dict e) →
      unflatten_go fuel items st ≠ .ok r := by
  intro fuel
  induction fuel with
  | zero =>
      intro items st p x v w r _ _ _ _ h
      simp [unflatten_go] at h
  | succ f ih =>
      intro items st p x v w r hp hm hw hnd h
      cases items with
      | nil => simp at hm
      | cons hd rest =>
          obtain ⟨k0, v0⟩ := hd
          rw [unflatten_go_cons] at h
          cases hh : unflatten_head f st k0 v0 with
          | error e => rw [hh] at h; cases h
          | ok st' =>
              rw [hh] at h
              rcases List.mem_cons.1 hm with heq | hmem
              · have hk : p ++ "." ++ x = k0 := congrArg Prod.fst heq
                exact unflatten_head_clash_error f st k0 p v0 w
                  (hk ▸ pySplitDot_concat_len p x hp)
                  (by rw [← hk, pySplitDot_concat p x hp]; rfl) hw hnd st' hh
              · by_cases hlen0 : 1 < (pySplitDot k0).length
                · by_cases hs0 : (pySplitDot k0).headD "" = p
                  · exact unflatten_head_clash_error f st k0 p v0 w hlen0 hs0 hw hnd st' hh
                  · have hpres := unflatten_head_lookup_ne f st st' k0 v0 p hp
                      (fun hpp => hs0 hpp.symm) hh
                    exact ih rest st' p x v w r hp hmem (hpres ▸ hw) hnd h
                · have hst' : st' = st := by
                    simp only [unflatten_head] at hh
                    rw [if_neg hlen0] at hh
                    cases hh
                    rfl
                  subst hst'
                  exact ih rest st' p x v w r hp hmem hw hnd h

/-- C10: a record holding both a dotted key `p.x` and a plain key `p` whose
value is not a dict makes `unflatten_dic` raise (the `.update` on the scalar
sitting at `p` fails with `AttributeError`): the walk never returns a
document, and on the two-key record the raised error is `AttributeError`. -/
theorem C10_unflatten_scalar_clash :
    (∀ fuel dic p x v w r, hasDot p = false →
      (p ++ "." ++ x, v) ∈ dic → dLookup dic p = some w → (∀ e, w ≠ Val.dict e) →
      unflatten_dic fuel dic ≠ .ok r) ∧
    unflatten_dic 9 [("p", Val.num 1), ("p.x", Val.num 2)] = .error .attributeError := by
  refine ⟨?_, rfl⟩
  intro fuel dic p x v w r hp hm hw hnd
  exact unflatten_clash_no_ok fuel dic dic p x v w r hp hm hw hnd

/-- Witness for C10 on the record `{"p": 1, "p.x": 2}`. -/
theorem C10_unflatten_scalar_clash_witness :
    unflatten_dic 5 [("p", Val.num 1), ("p.x", Val.num 2)] ≠
      .ok [("p", Val.num 1), ("p.x", Val.num 2)] :=
  C10_unflatten_scalar_clash.1 5 [("p", Val.num 1), ("p.x", Val.num 2)] "p" "x"
    (Val.num 2) (Val.num 1) [("p", Val.num 1), ("p.x", Val.num 2)]
    (by decide) (by simp [show ("p" : String) ++ "." ++ "x" = "p.x" from rfl])
    (by decide) (fun e h => Val.noConfusion h)

/-! ## Serialization lemmas (C9) -/

theorem pyDumpsD_skip_filter :
    ∀ es : List (PyKey × PyVal),
      pyDumpsD es = pyDumpsD (es.filter (fun e => (keyStr e.1).isSome)) := by
  intro es
  induction es with
  | nil => rfl
  | cons hd rest ih =>
      obtain ⟨k, v⟩ := hd
      cases hk : keyStr k with
      | none =>
          simp only [pyDumpsD, hk, List.filter_cons, Option.isSome_none,
            Bool.false_eq_true, if_false]
          exact ih
      | some ks =>
          simp only [pyDumpsD, hk, List.filter_cons, Option.isSome_some, if_true]
          rw [← ih]

theorem pyDumpsD_obj_value_no_ok :
    ∀ (es : List (PyKey × PyVal)) (k tag : String), (PyKey.s k, PyVal.obj tag) ∈ es →
      ∀ js, pyDumpsD es ≠ .ok js := by
  intro es
  induction es with
  | nil => intro k tag hm; simp at hm
  | cons hd rest ih =>
      intro k tag hm js h
      obtain ⟨k0, v0⟩ := hd
      rcases List.mem_cons.1 hm with heq | hmem
      · have hk : PyKey.s k = k0 := congrArg Prod.fst heq
        have hv : PyVal.obj tag = v0 := congrArg Prod.snd heq
        rw [← hk, ← hv] at h
        simp only [pyDumpsD, keyStr, pyDumps] at h
        cases h
      · cases hk : keyStr k0 with
        | none =>
            rw [show pyDumpsD ((k0, v0) :: rest) = pyDumpsD rest by
              simp only [pyDumpsD, hk]] at h
            exact ih k tag hmem js h
        | some ks =>
            simp only [pyDumpsD, hk] at h
            cases hv : pyDumps v0 with
            | error e => rw [hv] at h; cases h
            | ok jv =>
                rw [hv] at h
                cases hrest : pyDumpsD rest with
                | error e => rw [hrest] at h; cases h
                | ok js2 => exact ih k tag hmem js2 hrest

/-- C9 counterexample: a VALUE with no JSON representation (here a pandas
`Timestamp`-like object inside the first record) makes the
`json.dumps(..., skipkeys=True)` of `excel_to_json` raise `TypeError`
instead of being silently dropped. -/
theorem C9_counterexample :
    pyDumps (.dict [(.s "root", .list [.dict [(.s "k", .obj "Timestamp")]])]) =
      .error .typeError := rfl

/-- C9 (amended): `skipkeys=True` silently drops only dict ENTRIES whose KEY
has no JSON representation (serialization is unchanged by removing them);
a dict VALUE with no JSON representation is never serialized successfully —
`json.dumps` raises `TypeError`, which `excel_to_json` logs and re-raises,
aborting the conversion. -/
theorem C9_skipkeys_amended :
    (∀ es : List (PyKey × PyVal),
      pyDumpsD es = pyDumpsD (es.filter (fun e => (keyStr e.1).isSome))) ∧
    (∀ (es : List (PyKey × PyVal)) (k tag : String), (PyKey.s k, PyVal.obj tag) ∈ es →
      ∀ js, pyDumpsD es ≠ .ok js) ∧
    pyDumps (.dict [(.other "tuple_key", .i 1), (.s "b", .i 2)]) =
      .ok (.obj [("b", .i 2)]) :=
  ⟨pyDumpsD_skip_filter, pyDumpsD_obj_value_no_ok, rfl⟩

/-- Witness for C9 (amended) at a one-entry dict with an unserializable
value. -/
theorem C9_skipkeys_amended_witness :
    ∀ js, pyDumpsD [(PyKey.s "k", PyVal.obj "Timestamp")] ≠ .ok js :=
  C9_skipkeys_amended.2.1 [(PyKey.s "k", PyVal.obj "Timestamp")] "k" "Timestamp"
    (List.mem_singleton.2 rfl)

/-! ## Type-coercion lemmas (C1) -/

theorem mapE_no_ok (f : Cell → Except PyErr Cell) :
    ∀ col c, c ∈ col → (∀ r, f c ≠ .ok r) → ∀ res, mapE f col ≠ .ok res := by
  intro col
  induction col with
  | nil => intro c hm; simp at hm
  | cons c0 rest ih =>
      intro c hm hbad res h
      rcases List.mem_cons.1 hm with heq | hmem
      · subst heq
        cases hf : f c with
        | error e => simp only [mapE, hf] at h; cases h
        | ok c2 => exact hbad c2 hf
      · cases hf : f c0 with
        | error e => simp only [mapE, hf] at h; cases h
        | ok c2 =>
            simp only [mapE, hf] at h
            cases hrest : mapE f rest with
            | error e => rw [hrest] at h; cases h
            | ok rest2 => exact ih c hmem hbad rest2 hrest

theorem mapE_id_of_fixed (f : Cell → Except PyErr Cell) :
    ∀ col, (∀ c ∈ col, f c = .ok c) → mapE f col = .ok col := by
  intro col
  induction col with
  | nil => intro _; rfl
  | cons c0 rest ih =>
      intro hfix
      have h0 : f c0 = .ok c0 := hfix c0 (List.mem_cons_self _ _)
      have hrest := ih (fun c hc => hfix c (List.mem_cons_of_mem _ hc))
      simp only [mapE, h0, hrest]

theorem to_numeric_coerce_not_str (col : Column) (c : Cell) (h : c ∈ to_numeric_coerce col) :
    ∀ v, c ≠ .s v := by
  unfold to_numeric_coerce at h
  rcases List.mem_map.1 h with ⟨c0, _, hc⟩
  intro v hv
  cases c0 with
  | s w =>
      rw [← hc] at hv
      simp only at hv
      cases hpw : pyFloatParse w <;> rw [hpw] at hv <;> cases hv
  | num q => rw [← hc] at hv; cases hv
  | nan => rw [← hc] at hv; cases hv

theorem map_ne_self_of_mem {α : Type} (l : List α) (f : α → α) (x : α)
    (hx : x ∈ l) (hfx : f x ≠ x) : l.map f ≠ l := by
  induction l with
  | nil => simp at hx
  | cons a rest ih =>
      intro h
      simp only [List.map_cons, List.cons.injEq] at h
      rcases List.mem_cons.1 hx with heq | hmem
      · exact hfx (heq ▸ h.1)
      · exact ih hmem h.2

theorem castFloat_fixed_on_coerced (col : Column) :
    ∀ c ∈ to_numeric_coerce col, castFloat c = .ok c := by
  intro c hc
  cases c with
  | s v => exact absurd rfl (to_numeric_coerce_not_str col (.s v) hc v)
  | num q => rfl
  | nan => rfl

theorem nan_mem_coerced_of_bad (col : Column) (v : String)
    (hm : (Cell.s v) ∈ col) (hbad : pyFloatParse (commaToDot v) = none) :
    Cell.nan ∈ to_numeric_coerce (col.map commaCell) := by
  have h1 : (Cell.s (commaToDot v)) ∈ col.map commaCell := by
    rcases List.mem_map.2 ⟨Cell.s v, hm, rfl⟩ with h
    exact h
  unfold to_numeric_coerce
  refine List.mem_map.2 ⟨Cell.s (commaToDot v), h1, ?_⟩
  simp [hbad]

/-- C1 counterexample: a string column declared `int` with a non-numeric
value is NOT left as it was — the caught `astype` failure leaves the column
holding the `to_numeric(..., errors='coerce')` intermediate, with the
parseable string converted and the unparseable one replaced by NaN. -/
theorem C1_counterexample :
    apply_dtype_to_column "int" [Cell.s "abc", Cell.s "2"] = [Cell.nan, Cell.num 2] ∧
    apply_dtype_to_column "int" [Cell.s "abc", Cell.s "2"] ≠ [Cell.s "abc", Cell.s "2"] :=
  ⟨rfl, by decide⟩

/-- C1 (amended): for a string column declared `int` with an uncoercible
value, the `astype` error is caught and logged and the OTHER columns are
still processed, but the column is left holding the intermediate
`to_numeric(..., errors='coerce')` result — parseable values numeric,
unparseable values NaN — not its original values; for a string column
declared `float` no error is raised at all and the same coerced column (bad
values silently NaN) is kept. -/
theorem C1_coercion_amended :
    (∀ col v, is_string_dtype col = true → (Cell.s v) ∈ col →
      pyFloatParse (commaToDot v) = none →
      apply_dtype_to_column "int" col = to_numeric_coerce (col.map commaCell) ∧
      apply_dtype_to_column "int" col ≠ col) ∧
    (∀ col, is_string_dtype col = true →
      apply_dtype_to_column "float" col = to_numeric_coerce (col.map commaCell)) ∧
    apply_datatypes [("a", "int"), ("b", "int")] [("a", [Cell.s "x"]), ("b", [Cell.s "2"])] =
      [("a", [Cell.nan]), ("b", [Cell.num 2])] := by
  refine ⟨?_, ?_, rfl⟩
  · intro col v hsd hm hbad
    have hnan := nan_mem_coerced_of_bad col v hm hbad
    have hnok := mapE_no_ok castInt (to_numeric_coerce (col.map commaCell)) Cell.nan hnan
      (fun r h => by cases h)
    have hcol1 : apply_dtype_to_column "int" col = to_numeric_coerce (col.map commaCell) := by
      unfold apply_dtype_to_column
      rw [hsd]
      simp only [Bool.true_and]
      cases hast : astype "int" (to_numeric_coerce (List.map commaCell col)) with
      | error e => simp [hast]
      | ok col2 =>
          exact absurd hast (by
            unfold astype
            rw [if_pos rfl]
            exact fun hh => hnok col2 hh)
    refine ⟨hcol1, ?_⟩
    rw [hcol1]
    unfold to_numeric_coerce
    rw [List.map_map]
    exact map_ne_self_of_mem col _ (Cell.s v) hm (by simp [commaCell, hbad])
  · intro col hsd
    unfold apply_dtype_to_column
    rw [hsd]
    simp only [Bool.true_and]
    have hast : astype "float" (to_numeric_coerce (List.map commaCell col)) =
        .ok (to_numeric_coerce (List.map commaCell col)) := by
      unfold astype
      rw [if_neg (by decide), if_pos rfl]
      exact mapE_id_of_fixed castFloat _ (castFloat_fixed_on_coerced (col.map commaCell))
    simp [hast]

/-- Witness for the amended C1 on the single-cell string column `["abc"]`. -/
theorem C1_coercion_amended_witness :
    (apply_dtype_to_column "int" [Cell.s "abc"] =
        to_numeric_coerce ([Cell.s "abc"].map commaCell) ∧
      apply_dtype_to_column "int" [Cell.s "abc"] ≠ [Cell.s "abc"]) ∧
    apply_dtype_to_column "float" [Cell.s "abc"] =
      to_numeric_coerce ([Cell.s "abc"].map commaCell) :=
  ⟨C1_coercion_amended.1 [Cell.s "abc"] "abc" rfl (List.mem_singleton.2 rfl) rfl,
   C1_coercion_amended.2.1 [Cell.s "abc"] rfl⟩

/-! ## Auto-mapper lemmas (C6, C7) -/

theorem aLookup_mem {α : Type} :
    ∀ (l : List (String × α)) (key : String) (v : α),
      aLookup l key = some v → (key, v) ∈ l := by
  intro l
  induction l with
  | nil => intro key v h; simp [aLookup] at h
  | cons hd rest ih =>
      intro key v h
      obtain ⟨k0, v0⟩ := hd
      by_cases h0 : k0 = key
      · subst h0
        simp only [aLookup, if_true] at h
        cases h
        exact List.mem_cons_self _ _
      · simp only [aLookup, h0, if_false] at h
        exact List.mem_cons_of_mem _ (ih key v h)

theorem fuzzy_loop_special (t tl tb : String) (tv : List String) :
    ∀ (S1 : List String) (s : String) (S2 : List String) (best : Option String × Rat),
      (∀ s1 ∈ S1, special_case_hit tl s1 = false ∧
        direct_variation_hit t tb s1 (baseOf (pyLower s1)) = false) →
      special_case_hit tl s = true →
      fuzzy_loop t tl tb tv (S1 ++ s :: S2) best = (some s, 1) := by
  intro S1
  induction S1 with
  | nil =>
      intro s S2 best _ hsp
      simp only [List.nil_append, fuzzy_loop, hsp, if_true]
  | cons s1 S1' ih =>
      intro s S2 best hS1 hsp
      have h1 := hS1 s1 (List.mem_cons_self _ _)
      simp only [List.cons_append, fuzzy_loop, h1.1, h1.2, Bool.false_eq_true, if_false]
      repeat' split
      all_goals exact ih s S2 _ (fun x hx => hS1 x (List.mem_cons_of_mem _ hx)) hsp

theorem auto_map_fields_single (t : String) (S : List String) (bm : Option String)
    (sc : Rat) (hex : t ∉ S) (hci : ci_match (pyLower t) S = none)
    (hfz : fuzzy_loop t (pyLower t) (baseOf (pyLower t))
      (variationSet (splitUnderscore (baseOf (pyLower t)))) S (none, 0) = (bm, sc)) :
    auto_map_fields [t] S =
      bm.elim [] (fun b =>
        if b ≠ "" ∧ ratLtB (mkRat 3 10) sc = true then [(t, b)] else []) := by
  have hexb : (t ∈ S) = False := eq_false hex
  simp only [auto_map_fields, auto_map_go, hexb, if_false, hci, hfz]
  cases bm <;> rfl

/-- C6 counterexample: target `zip_code` against sources `["zip", "PLZ"]`.
`PLZ` is verbatim in the special-case table entry for `zip_code`, yet the
auto-mapper returns the earlier source `zip` (a 0.9 direct-variation match
breaks the scan before `PLZ` is ever examined), not `PLZ` with score 1.0. -/
theorem C6_counterexample :
    auto_map_fields ["zip_code"] ["zip", "PLZ"] = [("zip_code", "zip")] ∧
    auto_map_fields ["zip_code"] ["zip", "PLZ"] ≠ [("zip_code", "PLZ")] := by
  exact ⟨by decide, by decide⟩

/-- C6 (amended): the special-case lookup and the synonym scoring are
interleaved in one scan over the sources, and a direct-variation hit on an
earlier source short-circuits the scan; the score-1.0 special-case guarantee
holds once no earlier source triggers a special-case or direct-variation
break — then the target maps to the verbatim special source regardless of
token scoring of the earlier sources. -/
theorem C6_special_priority_amended :
    ∀ t S1 s S2, t ∉ (S1 ++ s :: S2) → ci_match (pyLower t) (S1 ++ s :: S2) = none →
      (∀ s1 ∈ S1, special_case_hit (pyLower t) s1 = false ∧
        direct_variation_hit t (baseOf (pyLower t)) s1 (baseOf (pyLower s1)) = false) →
      special_case_hit (pyLower t) s = true →
      auto_map_fields [t] (S1 ++ s :: S2) = [(t, s)] := by
  intro t S1 s S2 hex hci hS1 hsp
  have hfz := fuzzy_loop_special t (pyLower t) (baseOf (pyLower t))
    (variationSet (splitUnderscore (baseOf (pyLower t)))) S1 s S2 (none, 0) hS1 hsp
  rw [auto_map_fields_single t _ (some s) 1 hex hci hfz]
  simp only [Option.elim]
  have hne : s ≠ "" := by
    unfold special_case_hit at hsp
    cases hl : aLookup special_cases (pyLower t) with
    | none => rw [hl] at hsp; cases hsp
    | some lst =>
        rw [hl] at hsp
        have hmem := of_decide_eq_true hsp
        have htab := aLookup_mem special_cases (pyLower t) lst hl
        simp only [special_cases, List.mem_cons, List.not_mem_nil, or_false] at htab
        intro hs
        subst hs
        rcases htab with h|h|h|h|h|h <;>
          (rw [show lst = _ from congrArg Prod.snd h] at hmem ;
           exact absurd hmem (by decide))
  have hlt : ratLtB (mkRat 3 10) 1 = true := by decide
  simp [hne, hlt]

/-- Witness for the amended C6: target `zip_code`, single source `PLZ`. -/
theorem C6_special_priority_witness :
    auto_map_fields ["zip_code"] ["PLZ"] = [("zip_code", "PLZ")] :=
  C6_special_priority_amended "zip_code" [] "PLZ" [] (by decide) (by decide)
    (by simp) (by decide)

/-- C7: after the exact and case-insensitive strategies fail, a target is
mapped exactly when the source loop produces a best match that is a
nonempty string with score strictly above 0.3, and it is mapped to that
best match; the three spec examples evaluate as stated. -/
theorem C7_fuzzy_threshold :
    (∀ t S bm sc, t ∉ S → ci_match (pyLower t) S = none →
      fuzzy_loop t (pyLower t) (baseOf (pyLower t))
        (variationSet (splitUnderscore (baseOf (pyLower t)))) S (none, 0) = (bm, sc) →
      ((∃ srcv, aLookup (auto_map_fields [t] S) t = some srcv) ↔
        (∃ b, bm = some b ∧ b ≠ "" ∧ ratLtB (mkRat 3 10) sc = true)) ∧
      (∀ b, bm = some b → b ≠ "" → ratLtB (mkRat 3 10) sc = true →
        auto_map_fields [t] S = [(t, b)])) ∧
    auto_map_fields ["zip_code"] ["PLZ"] = [("zip_code", "PLZ")] ∧
    auto_map_fields ["first_name"] ["Vorname"] = [("first_name", "Vorname")] ∧
    auto_map_fields ["unrelated_x"] ["totally_different_y"] = [] := by
  refine ⟨?_, by decide, by decide, by decide⟩
  intro t S bm sc hex hci hfz
  rw [auto_map_fields_single t S bm sc hex hci hfz]
  cases bm with
  | none =>
      refine ⟨?_, ?_⟩
      · simp [aLookup]
      · intro b hb
        cases hb
  | some b0 =>
      simp only [Option.elim]
      by_cases hcond : b0 ≠ "" ∧ ratLtB (mkRat 3 10) sc = true
      · rw [if_pos hcond]
        refine ⟨?_, ?_⟩
        · constructor
          · intro _
            exact ⟨b0, rfl, hcond⟩
          · intro _
            exact ⟨b0, by simp [aLookup]⟩
        · intro b hb _ _
          cases hb
          rfl
      · rw [if_neg hcond]
        refine ⟨?_, ?_⟩
        · constructor
          · intro ⟨srcv, hsrc⟩
            simp [aLookup] at hsrc
          · rintro ⟨b, hb, hbne, hbsc⟩
            cases hb
            exact absurd ⟨hbne, hbsc⟩ hcond
        · intro b hb hbne hbsc
          cases hb
          exact absurd ⟨hbne, hbsc⟩ hcond

/-- Witness for the general part of C7: target `first_name`, source
`Vorname` (direct-variation score 0.9 > 0.3). -/
theorem C7_fuzzy_threshold_witness :
    auto_map_fields ["first_name"] ["Vorname"] = [("first_name", "Vorname")] :=
  C7_fuzzy_threshold.1 "first_name" ["Vorname"] (some "Vorname") (mkRat 9 10)
    (by decide) (by decide) (by decide) |>.2 "Vorname" rfl (by decide) (by decide)

/-! ## Depth-2 flattening round trip (C2) -/

/-- The external flattening step of the round-trip property, for documents
of depth at most two: a scalar leaf keeps its key, a nested mapping is
emitted as one dotted key per leaf. -/
def flatten02 : List (String × Val) → List (String × Val)
  | [] => []
  | (k, Val.dict sub) :: rest =>
      sub.map (fun q => (k ++ "." ++ q.1, q.2)) ++ flatten02 rest
  | (k, v) :: rest => (k, v) :: flatten02 rest

/-- Shape of an admissible nested value: a nonempty mapping with distinct,
dot-free keys and non-null scalar leaves. -/
def dictOk (v : Val) : Prop :=
  match v with
  | .dict sub => sub ≠ [] ∧ (sub.map Prod.fst).Nodup ∧
      ∀ q ∈ sub, hasDot q.1 = false ∧ plainScalar q.2 = true
  | _ => False

instance (v : Val) : Decidable (dictOk v) :=
  match v with
  | .dict _ => inferInstanceAs (Decidable (_ ∧ _ ∧ _))
  | .null => inferInstanceAs (Decidable False)
  | .num _ => inferInstanceAs (Decidable False)
  | .str _ => inferInstanceAs (Decidable False)
  | .boolean _ => inferInstanceAs (Decidable False)
  | .list _ => inferInstanceAs (Decidable False)

/-- Admissible depth-two documents: distinct dot-free keys, each value a
non-null scalar or an admissible nested mapping. -/
def docOk (doc : List (String × Val)) : Prop :=
  (doc.map Prod.fst).Nodup ∧
  ∀ p ∈ doc, hasDot p.1 = false ∧ (plainScalar p.2 = true ∨ dictOk p.2)

theorem hasDot_concat (p x : String) : hasDot (p ++ "." ++ x) = true := by
  unfold hasDot
  rw [toList_concat3]
  simp

theorem join_singleton (b : String) : String.join [b] = b := by
  simp [String.join]

theorem setdefault_of_present (st : PyDict) (k : String) (v w : Val)
    (h : dLookup st k = some w) : setdefault st k v = st := by
  unfold setdefault
  rw [h]

theorem dInsert_absent_append (st : PyDict) (k : String) (v : Val)
    (h : dLookup st k = none) : dInsert st k v = st ++ [(k, v)] := by
  induction st with
  | nil => rfl
  | cons hd tl ih =>
      obtain ⟨k0, v0⟩ := hd
      by_cases h0 : k0 = k
      · simp [dLookup, h0] at h
      · simp only [dLookup, h0, if_false] at h
        simp [dInsert, h0, ih h]

theorem mem_dInsert_cases (st : PyDict) (k : String) (v : Val) (q : String × Val)
    (h : q ∈ dInsert st k v) : q ∈ st ∨ q.1 = k := by
  induction st with
  | nil =>
      simp only [dInsert, List.mem_singleton] at h
      exact Or.inr (by rw [h])
  | cons hd tl ih =>
      obtain ⟨k0, v0⟩ := hd
      by_cases h0 : k0 = k
      · simp only [dInsert, h0, if_true, List.mem_cons] at h
        rcases h with h1 | h1
        · exact Or.inr (by rw [h1])
        · exact Or.inl (List.mem_cons_of_mem _ h1)
      · simp only [dInsert, h0, if_false, List.mem_cons] at h
        rcases h with h1 | h1
        · exact Or.inl (h1 ▸ List.mem_cons_self _ _)
        · rcases ih h1 with h2 | h2
          · exact Or.inl (List.mem_cons_of_mem _ h2)
          · exact Or.inr h2

theorem dLookup_some_mem (st : PyDict) (k : String) (v : Val)
    (h : dLookup st k = some v) : (k, v) ∈ st := by
  induction st with
  | nil => simp [dLookup] at h
  | cons hd tl ih =>
      obtain ⟨k0, v0⟩ := hd
      by_cases h0 : k0 = k
      · subst h0
        simp only [dLookup, if_true] at h
        cases h
        exact List.mem_cons_self _ _
      · simp only [dLookup, h0, if_false] at h
        exact List.mem_cons_of_mem _ (ih h)

theorem nodup_key_unique (l : List (String × Val)) (k : String) (a b : Val)
    (hn : (l.map Prod.fst).Nodup) (ha : (k, a) ∈ l) (hb : (k, b) ∈ l) : a = b := by
  have h1 := dLookup_eq_some_of_mem l k a hn ha
  have h2 := dLookup_eq_some_of_mem l k b hn hb
  rw [h1] at h2
  exact Option.some.inj h2

theorem dLookup_none_of_not_mem_keys (st : PyDict) (k : String)
    (h : k ∉ st.map Prod.fst) : dLookup st k = none := by
  cases hl : dLookup st k with
  | none => rfl
  | some w => exact absurd (mem_keys_of_dLookup_some st k w hl) h

theorem columnar_false_of_scalar_head (sub : List (String × Val))
    (hne : sub ≠ []) (hsc : ∀ q ∈ sub, plainScalar q.2 = true) :
    columnar_all (sub.map Prod.snd) = false := by
  cases sub with
  | nil => exact absurd rfl hne
  | cons q0 rest =>
      have h0 := hsc q0 (List.mem_cons_self _ _)
      simp only [List.map_cons, columnar_all]
      cases hq : q0.2 with
      | num q => rfl
      | str s => rfl
      | boolean b => rfl
      | null => rw [hq] at h0
      | list l => rw [hq] at h0; simp [plainScalar] at h0
      | dict e => rw [hq] at h0

theorem foldl_dInsert_fresh :
    ∀ (sub : List (String × Val)) (acc : PyDict),
      (∀ q ∈ sub, dLookup acc q.1 = none) → (sub.map Prod.fst).Nodup →
      sub.foldl (fun c q => dInsert c q.1 q.2) acc = acc ++ sub := by
  intro sub
  induction sub with
  | nil => intro acc _ _; simp
  | cons q0 rest ih =>
      intro acc hfresh hnd
      obtain ⟨b, s⟩ := q0
      simp only [List.map_cons, List.nodup_cons] at hnd
      have h0 : dLookup acc b = none := hfresh (b, s) (List.mem_cons_self _ _)
      simp only [List.foldl_cons]
      rw [show dInsert acc b s = acc ++ [(b, s)] from dInsert_absent_append acc b s h0]
      rw [ih (acc ++ [(b, s)]) ?_ hnd.2]
      · simp
      · intro q hq
        have hqb : q.1 ≠ b := by
          intro hh
          exact hnd.1 (hh ▸ List.mem_map_of_mem Prod.fst hq)
        rw [dLookup_append_ne acc b q.1 s hqb]
        exact hfresh q (List.mem_cons_of_mem _ hq)

theorem flatten02_mem_scalar :
    ∀ (doc : List (String × Val)) (k : String) (v : Val), (k, v) ∈ doc →
      plainScalar v = true → (k, v) ∈ flatten02 doc := by
  intro doc
  induction doc with
  | nil => intro k v hm; simp at hm
  | cons hd rest ih =>
      intro k v hm hsc
      obtain ⟨k0, v0⟩ := hd
      rcases List.mem_cons.1 hm with heq | hmem
      · have hk : k = k0 := congrArg Prod.fst heq
        have hv : v = v0 := congrArg Prod.snd heq
        subst hk; subst hv
        cases v with
        | dict sub => simp [plainScalar] at hsc
        | null => simp [plainScalar] at hsc
        | num q => exact List.mem_cons_self _ _
        | str s => exact List.mem_cons_self _ _
        | boolean b => exact List.mem_cons_self _ _
        | list l => simp [plainScalar] at hsc
      · cases v0 with
        | dict sub => exact List.mem_append_right _ (ih k v hmem hsc)
        | null => exact List.mem_cons_of_mem _ (ih k v hmem hsc)
        | num q => exact List.mem_cons_of_mem _ (ih k v hmem hsc)
        | str s => exact List.mem_cons_of_mem _ (ih k v hmem hsc)
        | boolean b => exact List.mem_cons_of_mem _ (ih k v hmem hsc)
        | list l => exact List.mem_cons_of_mem _ (ih k v hmem hsc)

theorem flatten02_keys_shape :
    ∀ (doc : List (String × Val)) (K : String),
      (∀ p ∈ doc, plainScalar p.2 = true ∨ dictOk p.2) →
      K ∈ (flatten02 doc).map Prod.fst →
      (∃ p ∈ doc, plainScalar p.2 = true ∧ K = p.1) ∨ hasDot K = true := by
  intro doc
  induction doc with
  | nil => intro K _ h; simp [flatten02] at h
  | cons hd rest ih =>
      intro K hok h
      obtain ⟨k0, v0⟩ := hd
      have hok0 := hok (k0, v0) (List.mem_cons_self _ _)
      have hokr : ∀ p ∈ rest, plainScalar p.2 = true ∨ dictOk p.2 :=
        fun p hp => hok p (List.mem_cons_of_mem _ hp)
      cases v0 with
      | dict sub =>
          simp only [flatten02, List.map_append, List.mem_append, List.map_map] at h
          rcases h with h1 | h1
          · rcases List.mem_map.1 h1 with ⟨q, _, hq⟩
            right
            rw [← hq]
            exact hasDot_concat k0 q.1
          · rcases ih K hokr h1 with ⟨p, hp, hps, hpk⟩ | h2
            · exact Or.inl ⟨p, List.mem_cons_of_mem _ hp, hps, hpk⟩
            · exact Or.inr h2
      | null =>
          exact absurd hok0 (by simp [plainScalar, dictOk])
      | list l =>
          exact absurd hok0 (by simp [plainScalar, dictOk])
      | num q =>
          simp only [flatten02, List.map_cons, List.mem_cons] at h
          rcases h with h1 | h1
          · exact Or.inl ⟨(k0, Val.num q), List.mem_cons_self _ _, rfl, h1⟩
          · rcases ih K hokr h1 with ⟨p, hp, hps, hpk⟩ | h2
            · exact Or.inl ⟨p, List.mem_cons_of_mem _ hp, hps, hpk⟩
            · exact Or.inr h2
      | str sv =>
          simp only [flatten02, List.map_cons, List.mem_cons] at h
          rcases h with h1 | h1
          · exact Or.inl ⟨(k0, Val.str sv), List.mem_cons_self _ _, rfl, h1⟩
          · rcases ih K hokr h1 with ⟨p, hp, hps, hpk⟩ | h2
            · exact Or.inl ⟨p, List.mem_cons_of_mem _ hp, hps, hpk⟩
            · exact Or.inr h2
      | boolean bv =>
          simp only [flatten02, List.map_cons, List.mem_cons] at h
          rcases h with h1 | h1
          · exact Or.inl ⟨(k0, Val.boolean bv), List.mem_cons_self _ _, rfl, h1⟩
          · rcases ih K hokr h1 with ⟨p, hp, hps, hpk⟩ | h2
            · exact Or.inl ⟨p, List.mem_cons_of_mem _ hp, hps, hpk⟩
            · exact Or.inr h2

theorem merge_head_scalar_id (fuel : Nat) (rn : Bool) (st : PyDict) (k : String)
    (v : Val) (hps : plainScalar v = true) : merge_head fuel rn st k v = .ok st := by
  cases v with
  | num q => rfl
  | str s => rfl
  | boolean b => rfl
  | null => simp [plainScalar] at hps
  | list l => simp [plainScalar] at hps
  | dict e => simp [plainScalar] at hps

theorem merge_go_scalars_pres :
    ∀ fuel items rn st r, (∀ q ∈ items, plainScalar q.2 = true) →
      merge_lists_go fuel items rn st = .ok r → r = st := by
  intro fuel
  induction fuel with
  | zero =>
      intro items rn st r _ h
      simp [merge_lists_go] at h
  | succ f ih =>
      intro items rn st r hsc h
      cases items with
      | nil =>
          simp only [merge_lists_go] at h
          cases h
          rfl
      | cons hd rest =>
          obtain ⟨k0, v0⟩ := hd
          rw [merge_go_cons] at h
          rw [merge_head_scalar_id f rn st k0 v0 (hsc (k0, v0) (List.mem_cons_self _ _))] at h
          exact ih rest rn st r (fun q hq => hsc q (List.mem_cons_of_mem _ hq)) h

theorem unflatten_head_nodot (fuel : Nat) (st : PyDict) (k : String) (v : Val)
    (h : hasDot k = false) : unflatten_head fuel st k v = .ok st := by
  simp only [unflatten_head]
  rw [if_neg (not_dotted_of_no_dot k h)]

theorem unflatten_head_keysNodup (fuel : Nat) (st st' : PyDict) (k : String) (v : Val)
    (hn : keysNodup st) (h : unflatten_head fuel st k v = .ok st') : keysNodup st' := by
  simp only [unflatten_head] at h
  split at h
  · split at h
    · split at h
      · cases h
      · split at h
        · cases h
          exact keysNodup_dErase _ _ (keysNodup_dInsert _ _ _ (keysNodup_setdefault _ _ _ hn))
        · cases h
    · cases h
    · cases h
  · cases h
    exact hn

theorem unflatten_go_keysNodup :
    ∀ fuel items st r, keysNodup st → unflatten_go fuel items st = .ok r →
      keysNodup r := by
  intro fuel
  induction fuel with
  | zero =>
      intro items st r _ h
      simp [unflatten_go] at h
  | succ f ih =>
      intro items st r hn h
      cases items with
      | nil =>
          simp only [unflatten_go] at h
          cases h
          exact hn
      | cons hd rest =>
          obtain ⟨k0, v0⟩ := hd
          rw [unflatten_go_cons] at h
          cases hh : unflatten_head f st k0 v0 with
          | error e => rw [hh] at h; cases h
          | ok st' =>
              rw [hh] at h
              exact ih rest st' r (unflatten_head_keysNodup f st st' k0 v0 hn hh) h

theorem unflatten_go_nodots :
    ∀ fuel items st r, (∀ p ∈ items, hasDot p.1 = false) →
      unflatten_go fuel items st = .ok r → r = st := by
  intro fuel
  induction fuel with
  | zero =>
      intro items st r _ h
      simp [unflatten_go] at h
  | succ f ih =>
      intro items st r hdf h
      cases items with
      | nil =>
          simp only [unflatten_go] at h
          cases h
          rfl
      | cons hd rest =>
          obtain ⟨k0, v0⟩ := hd
          rw [unflatten_go_cons] at h
          rw [unflatten_head_nodot f st k0 v0 (hdf (k0, v0) (List.mem_cons_self _ _))] at h
          exact ih rest st r (fun p hp => hdf p (List.mem_cons_of_mem _ hp)) h

theorem hasDot_ne {a b : String} (ha : hasDot a = true) (hb : hasDot b = false) :
    a ≠ b := by
  intro h
  rw [h, hb] at ha
  cases ha

theorem nodot_concat_inj_chars :
    ∀ (a b x y : List Char), '.' ∉ a → '.' ∉ b →
      a ++ '.' :: x = b ++ '.' :: y → a = b ∧ x = y := by
  intro a
  induction a with
  | nil =>
      intro b x y _ hb h
      cases b with
      | nil => simpa using h
      | cons d bs =>
          simp only [List.nil_append, List.cons_append, List.cons.injEq] at h
          obtain ⟨h1, _⟩ := h
          subst h1
          exact absurd (List.mem_cons_self _ _) hb
  | cons c as ih =>
      intro b x y ha hb h
      cases b with
      | nil =>
          simp only [List.cons_append, List.nil_append, List.cons.injEq] at h
          obtain ⟨h1, _⟩ := h
          exact absurd (show ('.' : Char) ∈ c :: as by rw [h1]; exact List.mem_cons_self _ _) ha
      | cons d bs =>
          simp only [List.cons_append, List.cons.injEq] at h
          obtain ⟨h1, h2⟩ := h
          have hrec := ih bs x y (fun hm => ha (List.mem_cons_of_mem _ hm))
            (fun hm => hb (List.mem_cons_of_mem _ hm)) h2
          exact ⟨by rw [h1, hrec.1], hrec.2⟩

theorem dotted_key_inj (k1 k2 x y : String) (h1 : hasDot k1 = false)
    (h2 : hasDot k2 = false) (h : k1 ++ "." ++ x = k2 ++ "." ++ y) :
    k1 = k2 ∧ x = y := by
  have hl : k1.toList ++ '.' :: x.toList = k2.toList ++ '.' :: y.toList := by
    rw [← toList_concat3, ← toList_concat3, h]
  have hc := nodot_concat_inj_chars k1.toList k2.toList x.toList y.toList
    (by simpa [hasDot] using h1) (by simpa [hasDot] using h2) hl
  constructor
  · cases k1; cases k2; exact congrArg String.mk hc.1
  · cases x; cases y; exact congrArg String.mk hc.2

theorem unflatten_block_step (f : Nat) (st : PyDict) (k b : String) (s : Val)
    (c : PyDict) (st' : PyDict)
    (hk : hasDot k = false) (hb : hasDot b = false)
    (hst : dLookup st k = some (.dict c))
    (hcb : dLookup c b = none)
    (hcdf : ∀ q ∈ c, hasDot q.1 = false)
    (h : unflatten_head f st (k ++ "." ++ b) s = .ok st') :
    st' = dErase (dInsert st k (.dict (c ++ [(b, s)]))) (k ++ "." ++ b) := by
  have hsplit : pySplitDot (k ++ "." ++ b) = [k, b] := by
    rw [pySplitDot_concat k b hk, pySplitDot_single b hb]
  have hs0 : (pySplitDot (k ++ "." ++ b)).headD "" = k := by
    rw [hsplit]
    rfl
  have hj : String.join ((pySplitDot (k ++ "." ++ b)).drop 1) = b := by
    rw [hsplit]
    exact join_singleton b
  simp only [unflatten_head] at h
  split at h
  · split at h
    · rename_i child hl
      split at h
      · cases h
      · rename_i child2 hrec
        split at h
        · rename_i u hdel
          cases h
          rw [hs0, setdefault_of_present st k (Val.dict []) (Val.dict c) hst, hst] at hl
          have hchild : child = c := (Val.dict.inj (Option.some.inj hl)).symm
          subst hchild
          rw [hj] at hrec
          have hdf : ∀ p ∈ dInsert child b s, hasDot p.1 = false := by
            intro p hp
            rcases mem_dInsert_cases child b s p hp with h1 | h1
            · exact hcdf p h1
            · rw [h1]
              exact hb
          have hc2 : child2 = dInsert child b s :=
            unflatten_go_nodots f _ _ child2 hdf hrec
          rw [hs0, setdefault_of_present st k (Val.dict []) (Val.dict child) hst,
            hc2, dInsert_absent_append child b s hcb]
        · cases h
    · cases h
    · cases h
  · rename_i hlen
    exact absurd (pySplitDot_concat_len k b hk) hlen

theorem unflatten_block_step0 (f : Nat) (st : PyDict) (k b : String) (s : Val)
    (st' : PyDict)
    (hk : hasDot k = false) (hb : hasDot b = false)
    (hst : dLookup st k = none)
    (h : unflatten_head f st (k ++ "." ++ b) s = .ok st') :
    st' = dErase (dInsert (st ++ [(k, Val.dict [])]) k (.dict [(b, s)]))
      (k ++ "." ++ b) := by
  have hsplit : pySplitDot (k ++ "." ++ b) = [k, b] := by
    rw [pySplitDot_concat k b hk, pySplitDot_single b hb]
  have hs0 : (pySplitDot (k ++ "." ++ b)).headD "" = k := by
    rw [hsplit]
    rfl
  have hj : String.join ((pySplitDot (k ++ "." ++ b)).drop 1) = b := by
    rw [hsplit]
    exact join_singleton b
  have hsd : setdefault st k (Val.dict []) = st ++ [(k, Val.dict [])] := by
    unfold setdefault
    rw [hst]
  simp only [unflatten_head] at h
  split at h
  · split at h
    · rename_i child hl
      split at h
      · cases h
      · rename_i child2 hrec
        split at h
        · rename_i u hdel
          cases h
          rw [hs0, dLookup_setdefault_of_none st k (Val.dict []) hst] at hl
          have hchild : child = [] := (Val.dict.inj (Option.some.inj hl)).symm
          subst hchild
          rw [hj] at hrec
          have hdf : ∀ p ∈ dInsert ([] : PyDict) b s, hasDot p.1 = false := by
            intro p hp
            rcases mem_dInsert_cases [] b s p hp with h1 | h1
            · simp at h1
            · rw [h1]
              exact hb
          have hc2 : child2 = dInsert ([] : PyDict) b s :=
            unflatten_go_nodots f _ _ child2 hdf hrec
          rw [hs0, hsd, hc2]
          rfl
        · cases h
    · cases h
    · cases h
  · rename_i hlen
    exact absurd (pySplitDot_concat_len k b hk) hlen

theorem unflatten_block :
    ∀ (sub : List (String × Val)) (fuel : Nat) (c : PyDict) (st : PyDict)
      (restItems : List (String × Val)) (r : PyDict) (k : String),
      hasDot k = false →
      (∀ q ∈ sub, hasDot q.1 = false) →
      (sub.map Prod.fst).Nodup →
      (∀ q ∈ sub, dLookup c q.1 = none) →
      (∀ q ∈ c, hasDot q.1 = false) →
      dLookup st k = some (.dict c) →
      unflatten_go fuel (sub.map (fun q => (k ++ "." ++ q.1, q.2)) ++ restItems) st
        = .ok r →
      ∃ fuel2 st2, unflatten_go fuel2 restItems st2 = .ok r ∧
        dLookup st2 k = some (.dict (c ++ sub)) ∧
        (∀ K, K ≠ k → (∀ q ∈ sub, K ≠ k ++ "." ++ q.1) →
          dLookup st2 K = dLookup st K) := by
  intro sub
  induction sub with
  | nil =>
      intro fuel c st restItems r k _ _ _ _ _ hst h
      refine ⟨fuel, st, ?_, ?_, ?_⟩
      · simpa using h
      · simpa using hst
      · intro K _ _
        rfl
  | cons q0 subrest ih =>
      intro fuel c st restItems r k hk hsub hnd hcf hcdf hst h
      obtain ⟨b, s⟩ := q0
      cases fuel with
      | zero => simp [unflatten_go] at h
      | succ f =>
          simp only [List.map_cons, List.cons_append] at h
          rw [unflatten_go_cons] at h
          cases hh : unflatten_head f st (k ++ "." ++ b) s with
          | error e => rw [hh] at h; cases h
          | ok stm =>
              rw [hh] at h
              have hb : hasDot b = false := hsub (b, s) (List.mem_cons_self _ _)
              have hcb : dLookup c b = none := hcf (b, s) (List.mem_cons_self _ _)
              have hstep := unflatten_block_step f st k b s c stm hk hb hst hcb hcdf hh
              have hkne : k ≠ k ++ "." ++ b := Ne.symm (hasDot_ne (hasDot_concat k b) hk)
              have hstm_k : dLookup stm k = some (.dict (c ++ [(b, s)])) := by
                rw [hstep, dLookup_dErase_ne _ _ _ hkne, dLookup_dInsert_self]
              simp only [List.map_cons, List.nodup_cons] at hnd
              have hcf2 : ∀ q ∈ subrest, dLookup (c ++ [(b, s)]) q.1 = none := by
                intro q hq
                have hqb : q.1 ≠ b := fun he => hnd.1 (he ▸ List.mem_map_of_mem Prod.fst hq)
                rw [dLookup_append_ne c b q.1 s hqb]
                exact hcf q (List.mem_cons_of_mem _ hq)
              have hcdf2 : ∀ q ∈ c ++ [(b, s)], hasDot q.1 = false := by
                intro q hq
                rcases List.mem_append.1 hq with h1 | h1
                · exact hcdf q h1
                · rw [List.mem_singleton.1 h1]
                  exact hb
              obtain ⟨fuel2, st2, hrun, hlook, hpres⟩ :=
                ih f (c ++ [(b, s)]) stm restItems r k hk
                  (fun q hq => hsub q (List.mem_cons_of_mem _ hq)) hnd.2 hcf2 hcdf2
                  hstm_k h
              refine ⟨fuel2, st2, hrun, ?_, ?_⟩
              · rw [hlook]
                simp
              · intro K hKk hKb
                rw [hpres K hKk (fun q hq => hKb q (List.mem_cons_of_mem _ hq)), hstep]
                have hKb0 : K ≠ k ++ "." ++ b := hKb (b, s) (List.mem_cons_self _ _)
                rw [dLookup_dErase_ne _ _ _ hKb0, dLookup_dInsert_ne _ _ _ _ hKk]

theorem unflatten_block0 :
    ∀ (sub : List (String × Val)) (fuel : Nat) (st : PyDict)
      (restItems : List (String × Val)) (r : PyDict) (k : String),
      sub ≠ [] →
      hasDot k = false →
      (∀ q ∈ sub, hasDot q.1 = false) →
      (sub.map Prod.fst).Nodup →
      dLookup st k = none →
      unflatten_go fuel (sub.map (fun q => (k ++ "." ++ q.1, q.2)) ++ restItems) st
        = .ok r →
      ∃ fuel2 st2, unflatten_go fuel2 restItems st2 = .ok r ∧
        dLookup st2 k = some (.dict sub) ∧
        (∀ K, K ≠ k → (∀ q ∈ sub, K ≠ k ++ "." ++ q.1) →
          dLookup st2 K = dLookup st K) := by
  intro sub fuel st restItems r k hne hk hsub hnd hst h
  cases sub with
  | nil => exact absurd rfl hne
  | cons q0 subrest =>
      obtain ⟨b, s⟩ := q0
      cases fuel with
      | zero => simp [unflatten_go] at h
      | succ f =>
          simp only [List.map_cons, List.cons_append] at h
          rw [unflatten_go_cons] at h
          cases hh : unflatten_head f st (k ++ "." ++ b) s with
          | error e => rw [hh] at h; cases h
          | ok stm =>
              rw [hh] at h
              have hb : hasDot b = false := hsub (b, s) (List.mem_cons_self _ _)
              have hstep := unflatten_block_step0 f st k b s stm hk hb hst hh
              have hkne : k ≠ k ++ "." ++ b := Ne.symm (hasDot_ne (hasDot_concat k b) hk)
              have hstm_k : dLookup stm k = some (.dict [(b, s)]) := by
                rw [hstep, dLookup_dErase_ne _ _ _ hkne, dLookup_dInsert_self]
              simp only [List.map_cons, List.nodup_cons] at hnd
              have hcf2 : ∀ q ∈ subrest, dLookup [(b, s)] q.1 = none := by
                intro q hq
                have hqb : b ≠ q.1 := fun he =>
                  hnd.1 (he ▸ List.mem_map_of_mem Prod.fst hq)
                simp [dLookup, hqb]
              have hcdf2 : ∀ q ∈ ([(b, s)] : PyDict), hasDot q.1 = false := by
                intro q hq
                rw [List.mem_singleton.1 hq]
                exact hb
              obtain ⟨fuel2, st2, hrun, hlook, hpres⟩ :=
                unflatten_block subrest f [(b, s)] stm restItems r k hk
                  (fun q hq => hsub q (List.mem_cons_of_mem _ hq)) hnd.2 hcf2 hcdf2
                  hstm_k h
              refine ⟨fuel2, st2, hrun, by simpa using hlook, ?_⟩
              intro K hKk hKb
              rw [hpres K hKk (fun q hq => hKb q (List.mem_cons_of_mem _ hq)), hstep]
              have hKb0 : K ≠ k ++ "." ++ b := hKb (b, s) (List.mem_cons_self _ _)
              rw [dLookup_dErase_ne _ _ _ hKb0, dLookup_dInsert_ne _ _ _ _ hKk]
              exact dLookup_append_ne st k K (Val.dict []) hKk

theorem flatten02_mem_block :
    ∀ (doc : List (String × Val)) (k : String) (sub : List (String × Val)),
      (k, Val.dict sub) ∈ doc → ∀ q ∈ sub, (k ++ "." ++ q.1, q.2) ∈ flatten02 doc := by
  intro doc
  induction doc with
  | nil =>
      intro k sub hm
      simp at hm
  | cons hd rest ih =>
      intro k sub hm q hq
      obtain ⟨k0, v0⟩ := hd
      rcases List.mem_cons.1 hm with heq | hmem
      · have hk : k = k0 := congrArg Prod.fst heq
        have hv : Val.dict sub = v0 := congrArg Prod.snd heq
        subst hk
        rw [← hv]
        exact List.mem_append_left _ (List.mem_map_of_mem _ hq)
      · cases v0 with
        | dict sub0 => exact List.mem_append_right _ (ih k sub hmem q hq)
        | null => exact List.mem_cons_of_mem _ (ih k sub hmem q hq)
        | num n => exact List.mem_cons_of_mem _ (ih k sub hmem q hq)
        | str t => exact List.mem_cons_of_mem _ (ih k sub hmem q hq)
        | boolean bb => exact List.mem_cons_of_mem _ (ih k sub hmem q hq)
        | list l => exact List.mem_cons_of_mem _ (ih k sub hmem q hq)

theorem flatten02_dict_key_fresh (doc : List (String × Val)) (hdoc : docOk doc)
    (k : String) (sub : List (String × Val)) (hm : (k, Val.dict sub) ∈ doc) :
    dLookup (flatten02 doc) k = none := by
  apply dLookup_none_of_not_mem_keys
  intro hmem
  rcases flatten02_keys_shape doc k (fun p hp => (hdoc.2 p hp).2) hmem with
    ⟨p, hp, hps, hpk⟩ | hdotted
  · have hp2 : (k, p.2) ∈ doc := by
      rw [hpk]
      exact hp
    have heq := nodup_key_unique doc k (Val.dict sub) p.2 hdoc.1 hm hp2
    rw [← heq] at hps
    simp [plainScalar] at hps
  · have hkdf := (hdoc.2 (k, Val.dict sub) hm).1
    rw [hkdf] at hdotted
    cases hdotted

theorem unflatten_go_flatten02 :
    ∀ (docItems : List (String × Val)) (fuel : Nat) (st : PyDict) (r : PyDict),
      (docItems.map Prod.fst).Nodup →
      (∀ p ∈ docItems, hasDot p.1 = false ∧ (plainScalar p.2 = true ∨ dictOk p.2)) →
      (∀ p ∈ docItems, plainScalar p.2 = true → dLookup st p.1 = some p.2) →
      (∀ k sub, (k, Val.dict sub) ∈ docItems → dLookup st k = none) →
      unflatten_go fuel (flatten02 docItems) st = .ok r →
      (∀ p ∈ docItems, dLookup r p.1 = some p.2) ∧
      (∀ K, hasDot K = false → (∀ p ∈ docItems, K ≠ p.1) →
        dLookup r K = dLookup st K) := by
  intro docItems
  induction docItems with
  | nil =>
      intro fuel st r _ _ _ _ h
      have hr : r = st := by
        cases fuel with
        | zero => simp [unflatten_go] at h
        | succ f =>
            simp only [flatten02, unflatten_go] at h
            cases h
            rfl
      subst hr
      exact ⟨fun p hp => absurd hp (List.not_mem_nil p), fun K _ _ => rfl⟩
  | cons hd rest ih =>
      intro fuel st r hnd hok hscal hfresh h
      obtain ⟨k0, v0⟩ := hd
      have hok0 := hok (k0, v0) (List.mem_cons_self _ _)
      simp only [List.map_cons, List.nodup_cons] at hnd
      have hk0nr : ∀ p2 ∈ rest, k0 ≠ p2.1 := by
        intro p2 hp2 he
        exact hnd.1 (by rw [he]; exact List.mem_map_of_mem Prod.fst hp2)
      rcases hok0.2 with hps | hdk
      · have hfl : flatten02 ((k0, v0) :: rest) = (k0, v0) :: flatten02 rest := by
          cases v0 with
          | dict e => simp [plainScalar] at hps
          | null => simp [plainScalar] at hps
          | list l => simp [plainScalar] at hps
          | num n => rfl
          | str t => rfl
          | boolean bb => rfl
        rw [hfl] at h
        cases fuel with
        | zero => simp [unflatten_go] at h
        | succ f =>
            rw [unflatten_go_cons, unflatten_head_nodot f st k0 v0 hok0.1] at h
            obtain ⟨ha, hb⟩ := ih f st r hnd.2
              (fun p hp => hok p (List.mem_cons_of_mem _ hp))
              (fun p hp hp2 => hscal p (List.mem_cons_of_mem _ hp) hp2)
              (fun k sub2 hm2 => hfresh k sub2 (List.mem_cons_of_mem _ hm2)) h
            constructor
            · intro p hp
              rcases List.mem_cons.1 hp with heq | hmem
              · have hk : p.1 = k0 := congrArg Prod.fst heq
                have hv : p.2 = v0 := congrArg Prod.snd heq
                rw [hk, hv, hb k0 hok0.1 hk0nr]
                exact hscal (k0, v0) (List.mem_cons_self _ _) hps
              · exact ha p hmem
            · intro K hKdf hKne
              exact hb K hKdf (fun p hp => hKne p (List.mem_cons_of_mem _ hp))
      · cases v0 with
        | null => exact False.elim hdk
        | num n => exact False.elim hdk
        | str t => exact False.elim hdk
        | boolean bb => exact False.elim hdk
        | list l => exact False.elim hdk
        | dict sub =>
            obtain ⟨hsne, hsnd, hsq⟩ := hdk
            have hfl : flatten02 ((k0, Val.dict sub) :: rest) =
                sub.map (fun q => (k0 ++ "." ++ q.1, q.2)) ++ flatten02 rest := rfl
            rw [hfl] at h
            obtain ⟨fuel2, st2, hrun, hlook, hpres⟩ :=
              unflatten_block0 sub fuel st (flatten02 rest) r k0 hsne hok0.1
                (fun q hq => (hsq q hq).1) hsnd
                (hfresh k0 sub (List.mem_cons_self _ _)) h
            have hscal2 : ∀ p ∈ rest, plainScalar p.2 = true →
                dLookup st2 p.1 = some p.2 := by
              intro p hp hp2
              have hdfp : hasDot p.1 = false := (hok p (List.mem_cons_of_mem _ hp)).1
              rw [hpres p.1
                (fun he => hnd.1 (by rw [← he]; exact List.mem_map_of_mem Prod.fst hp))
                (fun q hq => Ne.symm (hasDot_ne (hasDot_concat k0 q.1) hdfp))]
              exact hscal p (List.mem_cons_of_mem _ hp) hp2
            have hfresh2 : ∀ k sub2, (k, Val.dict sub2) ∈ rest →
                dLookup st2 k = none := by
              intro k sub2 hm2
              have hdfk : hasDot k = false :=
                (hok (k, Val.dict sub2) (List.mem_cons_of_mem _ hm2)).1
              rw [hpres k
                (fun he => hnd.1 (by rw [← he]; exact List.mem_map_of_mem Prod.fst hm2))
                (fun q hq => Ne.symm (hasDot_ne (hasDot_concat k0 q.1) hdfk))]
              exact hfresh k sub2 (List.mem_cons_of_mem _ hm2)
            obtain ⟨ha, hb⟩ := ih fuel2 st2 r hnd.2
              (fun p hp => hok p (List.mem_cons_of_mem _ hp)) hscal2 hfresh2 hrun
            constructor
            · intro p hp
              rcases List.mem_cons.1 hp with heq | hmem
              · have hk : p.1 = k0 := congrArg Prod.fst heq
                have hv : p.2 = Val.dict sub := congrArg Prod.snd heq
                rw [hk, hv, hb k0 hok0.1 hk0nr]
                exact hlook
              · exact ha p hmem
            · intro K hKdf hKne
              rw [hb K hKdf (fun p hp => hKne p (List.mem_cons_of_mem _ hp))]
              exact hpres K (hKne (k0, Val.dict sub) (List.mem_cons_self _ _))
                (fun q hq => Ne.symm (hasDot_ne (hasDot_concat k0 q.1) hKdf))

/-- C2 counterexample: the depth-three flattened record `{"a.b.c": 1}` is NOT
reshaped back to the nested `{"a": {"b": {"c": 1}}}`: `unflatten_dic` joins all
path segments after the first into the single key `"bc"`
(`"".join(subkeys[1:])` drops the dots), so the leaf is not reachable by
walking `a → b → c`. -/
theorem C2_counterexample :
    reshape 9 [("a.b.c", Val.num 1)] false =
      .ok [("a", Val.dict [("bc", Val.num 1)])] ∧
    dLookup [("a", Val.dict [("bc", Val.num 1)])] "a" ≠
      some (Val.dict [("b", Val.dict [("c", Val.num 1)])]) :=
  ⟨rfl, by decide⟩

/-- C2 (amended): for nested documents of depth at most two — distinct dot-free
top-level keys, each value a non-null scalar or a nonempty mapping with
distinct dot-free keys and non-null scalar leaves — flattening with dot-joined
paths and then applying the reshape step (`unflatten_dic` followed by
`merge_lists`) loses no information: every top-level entry of the original
document, scalar or nested mapping, is recovered exactly by lookup in the
result.  At depth three or more the spec's claim fails (see the
counterexample): the tail path segments are concatenated without dots. -/
theorem C2_roundtrip_amended (doc : List (String × Val)) (fuel : Nat) (r : PyDict)
    (hdoc : docOk doc) (hkn : keysNodup (flatten02 doc))
    (h : reshape fuel (flatten02 doc) false = .ok r) :
    ∀ p ∈ doc, dLookup r p.1 = some p.2 := by
  unfold reshape at h
  cases hu : unflatten_dic fuel (flatten02 doc) with
  | error e => rw [hu] at h; cases h
  | ok d1 =>
      rw [hu] at h
      have h2 : merge_lists_go fuel d1 false d1 = .ok r := h
      have hu2 : unflatten_go fuel (flatten02 doc) (flatten02 doc) = .ok d1 := hu
      have hmain := unflatten_go_flatten02 doc fuel (flatten02 doc) d1 hdoc.1
        (fun p hp => hdoc.2 p hp)
        (fun p hp hps => dLookup_eq_some_of_mem _ _ _ hkn
          (flatten02_mem_scalar doc p.1 p.2 hp hps))
        (fun k sub hm => flatten02_dict_key_fresh doc hdoc k sub hm) hu2
      have ha := hmain.1
      have hd1n : keysNodup d1 :=
        unflatten_go_keysNodup fuel (flatten02 doc) (flatten02 doc) d1 hkn hu2
      intro p hp
      rcases (hdoc.2 p hp).2 with hps | hdk
      · have hmem : (p.1, p.2) ∈ d1 := dLookup_some_mem d1 p.1 p.2 (ha p hp)
        rw [merge_scalar_entry fuel d1 false d1 r p.1 p.2 hd1n hmem hps h2]
        exact ha p hp
      · cases hv : p.2 with
        | null => rw [hv] at hdk; exact False.elim hdk
        | num n => rw [hv] at hdk; exact False.elim hdk
        | str t => rw [hv] at hdk; exact False.elim hdk
        | boolean bb => rw [hv] at hdk; exact False.elim hdk
        | list l => rw [hv] at hdk; exact False.elim hdk
        | dict sub =>
            rw [hv] at hdk
            obtain ⟨hsne, hsnd, hsq⟩ := hdk
            have hmem : (p.1, Val.dict sub) ∈ d1 :=
              dLookup_some_mem d1 p.1 _ (by rw [← hv]; exact ha p hp)
            have hca : columnar_all (sub.map Prod.snd) = false :=
              columnar_false_of_scalar_head sub hsne (fun q hq => (hsq q hq).2)
            obtain ⟨fuel2, e2, hrec, hlook⟩ :=
              merge_flatdict_entry fuel d1 false d1 r p.1 sub hd1n hmem hca h2
            have he2 : e2 = sub := merge_go_scalars_pres fuel2 sub false sub e2
              (fun q hq => (hsq q hq).2) hrec
            rw [hlook, he2]

/-- Witness for C2 on the depth-two document
`{"a": {"b": 1}, "c": 2}`: its dotted flattening `{"a.b": 1, "c": 2}`
reshaped with fuel 9 recovers both original entries. -/
theorem C2_roundtrip_amended_witness :
    dLookup [("c", Val.num 2), ("a", Val.dict [("b", Val.num 1)])] "a" =
      some (Val.dict [("b", Val.num 1)]) ∧
    dLookup [("c", Val.num 2), ("a", Val.dict [("b", Val.num 1)])] "c" =
      some (Val.num 2) := by
  have h := C2_roundtrip_amended
    [("a", Val.dict [("b", Val.num 1)]), ("c", Val.num 2)] 9
    [("c", Val.num 2), ("a", Val.dict [("b", Val.num 1)])]
    (by constructor
        · decide
        · decide)
    (by decide) rfl
  exact ⟨h ("a", Val.dict [("b", Val.num 1)]) (by simp),
    h ("c", Val.num 2) (by simp)⟩
